import Mathlib

/-!
Verification of the ClinDir PDF-processing pipeline.

The development shallowly embeds the pipeline of `main.py`, `helpers.py`,
`generators.py` and `models.py`:

* file contents are abstracted as natural numbers; the SHA256 digest,
  the PDF text extraction and the OpenAI classification call are modelled
  as functions supplied by an `Env` record (they are external collaborators
  whose outputs the pipeline only consumes);
* the JSON tracking file is modelled by `TrackFile`, distinguishing the
  states the code distinguishes: missing, blank, invalid JSON, valid JSON
  that is not a list, and a JSON list of items;
* a run of `main` is modelled by `runMain`, which threads the tracking
  state and produces a trace of observable events (skips, per-document
  build successes/failures, tracking-log appends, directory creations,
  file copies) plus an `aborted` flag for an uncaught exception.

Filesystem writes and copies are assumed to succeed; per-file readability
is part of the source-file model because `file_hash` raises `IOError`
on an unreadable file.
-/

/-- Structured output of the classification call (`models.OutputParsed`). -/
structure OutputParsed where
  docType : String
  description : String
  newFileName : String
  pathToFile : String
deriving Repr, DecidableEq

/-- A record of a processed PDF file (`models.FileDescriptor`). -/
structure FileDescriptor where
  id : String
  oldFilePath : String
  newFilePath : String
  docType : String
  docDescription : String
deriving Repr, DecidableEq

/-- One item of the JSON list stored in the tracking file.  The code only
inspects whether an item is a dict carrying an `id` key, so we distinguish
full descriptor dumps, other dicts that do carry an `id`, and everything
else (non-dicts and dicts without `id`). -/
inductive JItem where
  | fdRec (fd : FileDescriptor)
  | idOnly (i : String)
  | noId
deriving Repr, DecidableEq

/-- The states of the tracking file that `get_processed_files` and
`save_batch` distinguish: absent; present but empty/whitespace; present
but not valid JSON; valid JSON that is not a list; a JSON list. -/
inductive TrackFile where
  | missing
  | blank
  | invalidJson
  | jsonNonList
  | jsonList (items : List JItem)
deriving Repr, DecidableEq

/-- The `id` extracted from a tracking-file item, when the item is a dict
with an `id` key (`helpers.get_processed_files`, the list comprehension). -/
def itemId : JItem → Option String
  | .fdRec fd => some fd.id
  | .idOnly i => some i
  | .noId => none

/-- `helpers.get_processed_files`: returns the ids found in the tracking
file together with the state the tracking file is left in.
* missing file: it is created holding `[]` and `[]` is returned;
* valid JSON list: ids of the dict items carrying an `id` key;
* valid JSON, not a list: the file is reinitialized to `[]`, `[]` returned;
* invalid JSON (includes a blank file, since `json.load` raises
  `JSONDecodeError` on it): `[]` is returned and the file is left as it is.
No case raises to the caller. -/
def get_processed_files : TrackFile → List String × TrackFile
  | .missing => ([], .jsonList [])
  | .blank => ([], .blank)
  | .invalidJson => ([], .invalidJson)
  | .jsonNonList => ([], .jsonList [])
  | .jsonList items => (items.filterMap itemId, .jsonList items)

/-- The ids recoverable from a tracking-file state (empty unless the file
holds a JSON list). -/
def trackIds : TrackFile → List String
  | .jsonList items => items.filterMap itemId
  | _ => []

/-- The existing items `save_batch` tolerates: the items of a JSON list,
and the empty sequence for a missing, blank, invalid or non-list file. -/
def toleratedItems : TrackFile → List JItem
  | .jsonList items => items
  | _ => []

/-- `helpers.save_batch`: reads the current tracking file (missing file,
blank content, invalid JSON and non-list JSON all degrade to the empty
list), extends it with the `model_dump()` of each new descriptor, and
writes the merged list back. -/
def save_batch (track : TrackFile) (batch : List FileDescriptor) : TrackFile :=
  let tracked : List JItem :=
    match track with
    | .missing => []
    | .blank => []
    | .invalidJson => []
    | .jsonNonList => []
    | .jsonList items => items
  .jsonList (tracked ++ batch.map JItem.fdRec)

theorem get_processed_files_fst (t : TrackFile) :
    (get_processed_files t).1 = trackIds t := by
  cases t <;> rfl

theorem trackIds_get_snd (t : TrackFile) :
    trackIds (get_processed_files t).2 = trackIds t := by
  cases t <;> rfl

theorem filterMap_itemId_fdRec (batch : List FileDescriptor) :
    List.filterMap (itemId ∘ JItem.fdRec) batch = batch.map (fun fd => fd.id) := by
  induction batch with
  | nil => rfl
  | cons fd rest ih => simp [List.filterMap_cons, itemId, Function.comp, ih]

theorem trackIds_save_batch (t : TrackFile) (batch : List FileDescriptor) :
    trackIds (save_batch t batch) = trackIds t ++ batch.map (fun fd => fd.id) := by
  cases t <;>
    simp [save_batch, trackIds, List.filterMap_append, List.filterMap_map,
      filterMap_itemId_fdRec]

/-- Whether the first list is an initial segment of the second (used to
model `str.startswith` and `str.endswith` on character lists, so that all
path computations evaluate inside the kernel). -/
def listLeads {α : Type} [DecidableEq α] : List α → List α → Bool
  | [], _ => true
  | _ :: _, [] => false
  | a :: as, b :: bs => if a = b then listLeads as bs else false

/-- Python `s.startswith(pre)` on character sequences. -/
def startsWithStr (s pre : String) : Bool :=
  listLeads pre.data s.data

/-- Python `s.endswith(suf)` on character sequences. -/
def endsWithStr (s suf : String) : Bool :=
  listLeads suf.data.reverse s.data.reverse

/-- Python `s[n:]` on character sequences. -/
def strDrop (s : String) (n : Nat) : String :=
  ⟨s.data.drop n⟩

/-- `os.path.join(a, b)` for two POSIX components, as used at
`main.py:112` and `main.py:148`. -/
def os_path_join (a b : String) : String :=
  if startsWithStr b "/" then b
  else if a = "" then b
  else if endsWithStr a "/" then a ++ b
  else a ++ "/" ++ b

/-- POSIX `Path.is_absolute`: the path starts with the root separator. -/
def isAbsolutePath (p : String) : Bool :=
  startsWithStr p "/"

/-- `pathlib`'s `/` operator on POSIX paths (`output_dir_path / path_segment`
in `helpers.copy_files_if_new_path_exists`).  An absolute right operand
replaces the left one; an empty right operand contributes nothing.
Path normalization of duplicate or trailing separators is not modelled. -/
def pathlibJoin (a b : String) : String :=
  if startsWithStr b "/" then b
  else if b = "" then a
  else if endsWithStr a "/" then a ++ b
  else a ++ "/" ++ b

/-- The destination the relocator copies to, per descriptor
(`helpers.copy_files_if_new_path_exists`, lines 154-172): `none` when
`newFilePath` is empty (no action); the path itself when absolute;
otherwise the path — with a leading `./` or `.\` marker stripped —
joined under the output directory. -/
def resolveNewPath (output_dir : String) (newFilePath : String) : Option String :=
  if newFilePath = "" then none
  else if isAbsolutePath newFilePath then some newFilePath
  else
    let seg :=
      if startsWithStr newFilePath "./" then strDrop newFilePath 2
      else if startsWithStr newFilePath ".\\" then strDrop newFilePath 2
      else newFilePath
    some (pathlibJoin output_dir seg)

/-- Observable actions of one pipeline run. -/
inductive Event where
  | skip (name : String)
  | buildOk (fd : FileDescriptor)
  | buildFail (name : String)
  | append (recs : List FileDescriptor)
  | warnAbsolute (path : String)
  | ensureParentDir (target : String)
  | copy (src : String) (target : String)
  | skipCopy (id : String)
deriving Repr, DecidableEq

/-- `helpers.copy_files_if_new_path_exists` as a trace of actions: for each
descriptor, an empty `newFilePath` only logs a skip; otherwise the
destination is resolved (with a warning when it is absolute and therefore
bypasses the output directory), the destination's parent directory tree is
ensured to exist, and the file is copied.  Directory creation and the copy
are modelled as succeeding, and the source file as still present. -/
def copy_files_if_new_path_exists (output_dir : String) :
    List FileDescriptor → List Event
  | [] => []
  | fd :: rest =>
    (match resolveNewPath output_dir fd.newFilePath with
     | none => [Event.skipCopy fd.id]
     | some target =>
       (if isAbsolutePath fd.newFilePath then [Event.warnAbsolute fd.newFilePath] else [])
         ++ [Event.ensureParentDir target, Event.copy fd.oldFilePath target])
      ++ copy_files_if_new_path_exists output_dir rest

/-- The pipeline's external collaborators, as deterministic functions of
abstract file content (a `Nat`).
* `hashFn` models `helpers.file_hash` on a readable file: the SHA256 hex
  digest of the file's bytes, hence a function of content only;
* `extractFn` models `helpers.extract_text_from_pdf`, which never raises
  (any internal failure degrades to the empty string);
* `classifyFn` models `NameChanger.process_document`, which either returns
  a parsed `OutputParsed` or raises (`.error`). -/
structure Env where
  hashFn : Nat → String
  extractFn : Nat → String
  classifyFn : String → Except String OutputParsed

/-- A candidate source file: its basename, its byte content (abstract),
and whether it can be opened for reading (`file_hash` raises `IOError`
when it cannot). -/
structure SrcFile where
  name : String
  content : Nat
  readable : Bool
deriving Repr, DecidableEq

/-- `main.rename_file` on a readable file: computes the hash id, builds a
descriptor with blank destination fields, extracts text; empty text leaves
the blank descriptor (the document is still returned as a success); else
the classifier is invoked — `none` models its exception propagating out of
`rename_file` — and its output fills the destination path, description and
type. -/
def rename_file (env : Env) (filepath : String) (content : Nat) :
    Option FileDescriptor :=
  let file_id := env.hashFn content
  let descriptor : FileDescriptor :=
    { id := file_id, oldFilePath := filepath, newFilePath := ""
      docType := "", docDescription := "" }
  let text := env.extractFn content
  if text = "" then some descriptor
  else
    match env.classifyFn text with
    | .error _ => none
    | .ok name_info =>
      some { descriptor with
              newFilePath := os_path_join name_info.pathToFile name_info.newFileName
              docDescription := name_info.description
              docType := name_info.docType }

/-- `helpers.batchify`: successive `batch_size`-sized chunks.  The source
raises `ValueError` on a non-positive `batch_size`; that case is modelled
as producing no batches and is excluded by hypothesis in every theorem
that uses it. -/
def batchify {α : Type} (l : List α) (batch_size : Nat) : List (List α) :=
  if batch_size = 0 then []
  else (List.range ((l.length + batch_size - 1) / batch_size)).map
    fun i => (l.drop (i * batch_size)).take batch_size

theorem batchify_eq_cons {α : Type} (l : List α) (bs : Nat) (hbs : 0 < bs) :
    batchify l bs =
      if l.length = 0 then [] else l.take bs :: batchify (l.drop bs) bs := by
  unfold batchify
  rw [if_neg (Nat.pos_iff_ne_zero.mp hbs)]
  by_cases hl : l.length = 0
  · rw [if_pos hl, hl]
    have hz : (0 + bs - 1) / bs = 0 := Nat.div_eq_of_lt (by omega)
    simp only [hz]
    simp
  · rw [if_neg hl, if_neg (Nat.pos_iff_ne_zero.mp hbs)]
    have hlen : 0 < l.length := Nat.pos_of_ne_zero hl
    have hchunks : ∃ m, (l.length + bs - 1) / bs = m + 1 ∧
        (l.drop bs).length = (l.length - bs) ∧
        ((l.length - bs) + bs - 1) / bs = m := by
      refine ⟨(l.length - 1) / bs, ?_, List.length_drop bs l, ?_⟩
      · have : l.length + bs - 1 = (l.length - 1) + bs := by omega
        rw [this, Nat.add_div_right _ hbs]
      · by_cases hle : l.length ≤ bs
        · have h1 : l.length - bs = 0 := by omega
          have h2 : l.length - 1 < bs := by omega
          rw [h1, Nat.div_eq_of_lt h2, Nat.div_eq_of_lt (by omega)]
        · have : l.length - bs + bs - 1 = l.length - 1 := by omega
          rw [this]
    rcases hchunks with ⟨m, hm, hdroplen, hm'⟩
    rw [hm, hdroplen, hm', List.range_succ_eq_map, List.map_cons]
    refine congrArg₂ _ (by simp) ?_
    rw [List.map_map]
    refine List.map_congr_left ?_
    intro i _
    simp only [Function.comp]
    rw [List.drop_drop]
    have harg : i.succ * bs = bs + i * bs := by
      rw [Nat.succ_mul, Nat.add_comm]
    rw [harg]

/-- The inner loop of `main.main` over one batch (`main.py:147-159`):
per file, the filepath is joined, `file_hash` is computed — an unreadable
file raises `IOError` there, outside the `try`, aborting the whole loop —
then the file is skipped when its hash is among the ids loaded at startup,
and otherwise `rename_file` runs inside a `try` whose `except` turns any
exception into a logged per-document failure.  Returns the collected
descriptors, the events, and whether the loop aborted. -/
def processBatchDocs (env : Env) (pdf_dir : String) (saved_ids : List String) :
    List SrcFile → List FileDescriptor × List Event × Bool
  | [] => ([], [], false)
  | f :: rest =>
    if f.readable then
      let file_id := env.hashFn f.content
      if file_id ∈ saved_ids then
        let r := processBatchDocs env pdf_dir saved_ids rest
        (r.1, Event.skip f.name :: r.2.1, r.2.2)
      else
        match rename_file env (os_path_join pdf_dir f.name) f.content with
        | none =>
          let r := processBatchDocs env pdf_dir saved_ids rest
          (r.1, Event.buildFail f.name :: r.2.1, r.2.2)
        | some fd =>
          let r := processBatchDocs env pdf_dir saved_ids rest
          (fd :: r.1, Event.buildOk fd :: r.2.1, r.2.2)
    else ([], [], true)

/-- One iteration of the batch loop of `main.main` (`main.py:142-164`):
process the batch's documents; when the loop aborted, the pending
descriptors are discarded and the exception propagates; when any
descriptors were built, `save_batch` appends them to the tracking file and
`copy_files_if_new_path_exists` relocates them, in that order. -/
def runBatch (env : Env) (pdf_dir output_dir : String) (saved_ids : List String)
    (track : TrackFile) (b : List SrcFile) : TrackFile × List Event × Bool :=
  let r := processBatchDocs env pdf_dir saved_ids b
  if r.2.2 then (track, r.2.1, true)
  else if r.1.isEmpty then (track, r.2.1, false)
  else (save_batch track r.1,
        r.2.1 ++ Event.append r.1 :: copy_files_if_new_path_exists output_dir r.1,
        false)

/-- The batch loop of `main.main`: batches are processed in order, the
tracking state threads through the commits, and an abort stops the loop. -/
def runAllBatches (env : Env) (pdf_dir output_dir : String) (saved_ids : List String) :
    TrackFile → List (List SrcFile) → TrackFile × List Event × Bool
  | track, [] => (track, [], false)
  | track, b :: rest =>
    let rb := runBatch env pdf_dir output_dir saved_ids track b
    if rb.2.2 then (rb.1, rb.2.1, true)
    else
      let rr := runAllBatches env pdf_dir output_dir saved_ids rb.1 rest
      (rr.1, rb.2.1 ++ rr.2.1, rr.2.2)

/-- Outcome of one run of `main.main`: the final tracking-file state, the
trace of observable events, and whether the run aborted with an uncaught
exception. -/
structure RunResult where
  track : TrackFile
  trace : List Event
  aborted : Bool
deriving Repr, DecidableEq

/-- `main.main`: loads the previously processed ids from the tracking file
(possibly creating or reinitializing it), lists the candidate PDFs
(`files`, in `list_pdfs`'s sorted order), and runs the batch loop with the
loaded ids — which are never refreshed during the run. -/
def runMain (env : Env) (pdf_dir output_dir : String) (files : List SrcFile)
    (batch_size : Nat) (track0 : TrackFile) : RunResult :=
  let g := get_processed_files track0
  let r := runAllBatches env pdf_dir output_dir g.1 g.2 (batchify files batch_size)
  { track := r.1, trace := r.2.1, aborted := r.2.2 }

theorem batchify_flatten {α : Type} : ∀ (l : List α) (bs : Nat), 0 < bs →
    (batchify l bs).flatten = l
  | l, bs, hbs => by
    rw [batchify_eq_cons l bs hbs]
    by_cases hl : l.length = 0
    · rw [if_pos hl]
      rw [List.length_eq_zero] at hl
      rw [hl]
      rfl
    · rw [if_neg hl]
      have hlen : 0 < l.length := Nat.pos_of_ne_zero hl
      have ih := batchify_flatten (l.drop bs) bs hbs
      rw [List.flatten_cons, ih, List.take_append_drop]
termination_by l _ _ => l.length
decreasing_by
  simp only [List.length_drop]
  omega

theorem mem_of_mem_batchify {α : Type} {bs : Nat} (hbs : 0 < bs) {l b : List α}
    (hb : b ∈ batchify l bs) {x : α} (hx : x ∈ b) : x ∈ l := by
  rw [← batchify_flatten l bs hbs]
  exact List.mem_flatten.mpr ⟨b, hb, hx⟩

/-- The descriptors a batch contributes to its commit: the per-item results
of the skip-or-build decision, with skipped items and failed builds both
excluded. -/
def batchDescs (env : Env) (pdf_dir : String) (saved_ids : List String)
    (b : List SrcFile) : List FileDescriptor :=
  b.filterMap fun f =>
    if env.hashFn f.content ∈ saved_ids then none
    else rename_file env (os_path_join pdf_dir f.name) f.content

/-- The event one readable candidate produces inside a batch. -/
def docEvent (env : Env) (pdf_dir : String) (saved_ids : List String)
    (f : SrcFile) : Event :=
  if env.hashFn f.content ∈ saved_ids then Event.skip f.name
  else
    match rename_file env (os_path_join pdf_dir f.name) f.content with
    | none => Event.buildFail f.name
    | some fd => Event.buildOk fd

/-- The trace one fully readable batch produces. -/
def batchTrace (env : Env) (pdf_dir output_dir : String) (saved_ids : List String)
    (b : List SrcFile) : List Event :=
  b.map (docEvent env pdf_dir saved_ids) ++
    (if (batchDescs env pdf_dir saved_ids b).isEmpty then []
     else Event.append (batchDescs env pdf_dir saved_ids b) ::
       copy_files_if_new_path_exists output_dir (batchDescs env pdf_dir saved_ids b))

/-- The tracking state after committing a sequence of fully readable
batches in order. -/
def commitTrack (env : Env) (pdf_dir : String) (saved_ids : List String) :
    TrackFile → List (List SrcFile) → TrackFile
  | track, [] => track
  | track, b :: rest =>
    commitTrack env pdf_dir saved_ids
      (if (batchDescs env pdf_dir saved_ids b).isEmpty then track
       else save_batch track (batchDescs env pdf_dir saved_ids b)) rest

theorem processBatchDocs_eq_of_readable (env : Env) (pdf_dir : String)
    (saved_ids : List String) :
    ∀ b : List SrcFile, (∀ f ∈ b, f.readable = true) →
      processBatchDocs env pdf_dir saved_ids b =
        (batchDescs env pdf_dir saved_ids b,
         b.map (docEvent env pdf_dir saved_ids), false) := by
  intro b hb
  induction b with
  | nil => rfl
  | cons f rest ih =>
    have hf : f.readable = true := hb f (by simp)
    have hrest := ih (fun g hg => hb g (by simp [hg]))
    by_cases hmem : env.hashFn f.content ∈ saved_ids
    · simp [processBatchDocs, hf, hmem, hrest, batchDescs, docEvent,
        List.filterMap_cons]
    · cases hrf : rename_file env (os_path_join pdf_dir f.name) f.content with
      | none =>
        simp [processBatchDocs, hf, hmem, hrf, hrest, batchDescs, docEvent,
          List.filterMap_cons]
      | some fd =>
        simp [processBatchDocs, hf, hmem, hrf, hrest, batchDescs, docEvent,
          List.filterMap_cons]

theorem processBatchDocs_abort_iff (env : Env) (pdf_dir : String)
    (saved_ids : List String) (b : List SrcFile) :
    (processBatchDocs env pdf_dir saved_ids b).2.2 = true ↔
      ∃ f ∈ b, f.readable = false := by
  induction b with
  | nil => simp [processBatchDocs]
  | cons f rest ih =>
    by_cases hf : f.readable
    · by_cases hmem : env.hashFn f.content ∈ saved_ids
      · simp [processBatchDocs, hf, hmem, ih]
      · cases hrf : rename_file env (os_path_join pdf_dir f.name) f.content with
        | none => simp [processBatchDocs, hf, hmem, hrf, ih]
        | some fd => simp [processBatchDocs, hf, hmem, hrf, ih]
    · refine ⟨fun _ => ⟨f, by simp, by simpa using hf⟩, fun _ => ?_⟩
      simp [processBatchDocs, hf]

theorem runBatch_flag (env : Env) (pdf_dir output_dir : String)
    (saved_ids : List String) (track : TrackFile) (b : List SrcFile) :
    (runBatch env pdf_dir output_dir saved_ids track b).2.2 =
      (processBatchDocs env pdf_dir saved_ids b).2.2 := by
  unfold runBatch
  by_cases h : (processBatchDocs env pdf_dir saved_ids b).2.2 = true <;>
    by_cases h2 : (processBatchDocs env pdf_dir saved_ids b).1.isEmpty = true <;>
    simp [h, h2]

theorem runAllBatches_abort_iff (env : Env) (pdf_dir output_dir : String)
    (saved_ids : List String) :
    ∀ (bs : List (List SrcFile)) (track : TrackFile),
      (runAllBatches env pdf_dir output_dir saved_ids track bs).2.2 = true ↔
        ∃ b ∈ bs, ∃ f ∈ b, f.readable = false := by
  intro bs
  induction bs with
  | nil => intro track; simp [runAllBatches]
  | cons b rest ih =>
    intro track
    have hflag := runBatch_flag env pdf_dir output_dir saved_ids track b
    by_cases hpb : (processBatchDocs env pdf_dir saved_ids b).2.2 = true
    · have h1 : (runBatch env pdf_dir output_dir saved_ids track b).2.2 = true := by
        rw [hflag, hpb]
      simp only [runAllBatches, h1, if_true]
      constructor
      · intro _
        exact ⟨b, List.mem_cons_self b rest,
          (processBatchDocs_abort_iff env pdf_dir saved_ids b).mp hpb⟩
      · intro _; trivial
    · have h1 : (runBatch env pdf_dir output_dir saved_ids track b).2.2 = false := by
        rw [hflag]
        exact Bool.eq_false_iff.mpr hpb
      have hnob : ¬∃ f ∈ b, f.readable = false := by
        rw [← processBatchDocs_abort_iff env pdf_dir saved_ids b]
        exact hpb
      simp only [runAllBatches, h1, Bool.false_eq_true, if_false]
      rw [ih (runBatch env pdf_dir output_dir saved_ids track b).1]
      constructor
      · rintro ⟨b', hb', hf'⟩
        exact ⟨b', List.mem_cons_of_mem b hb', hf'⟩
      · rintro ⟨b', hb', hf'⟩
        rcases List.mem_cons.mp hb' with h | h
        · subst h; exact absurd hf' hnob
        · exact ⟨b', h, hf'⟩

theorem runAllBatches_eq_of_readable (env : Env) (pdf_dir output_dir : String)
    (saved_ids : List String) :
    ∀ (bs : List (List SrcFile)) (track : TrackFile),
      (∀ b ∈ bs, ∀ f ∈ b, f.readable = true) →
      runAllBatches env pdf_dir output_dir saved_ids track bs =
        (commitTrack env pdf_dir saved_ids track bs,
         (bs.map (batchTrace env pdf_dir output_dir saved_ids)).flatten, false) := by
  intro bs
  induction bs with
  | nil => intro track _; simp [runAllBatches, commitTrack]
  | cons b rest ih =>
    intro track hb
    have hbread : ∀ f ∈ b, f.readable = true := hb b (by simp)
    have hpb := processBatchDocs_eq_of_readable env pdf_dir saved_ids b hbread
    have hrb : runBatch env pdf_dir output_dir saved_ids track b =
        (if (batchDescs env pdf_dir saved_ids b).isEmpty then track
         else save_batch track (batchDescs env pdf_dir saved_ids b),
         batchTrace env pdf_dir output_dir saved_ids b, false) := by
      unfold runBatch
      rw [hpb]
      by_cases hds : (batchDescs env pdf_dir saved_ids b).isEmpty = true
      · simp [hds, batchTrace]
      · simp [hds, batchTrace]
    have hrest := ih (if (batchDescs env pdf_dir saved_ids b).isEmpty then track
         else save_batch track (batchDescs env pdf_dir saved_ids b))
      (fun b' hb' => hb b' (List.mem_cons_of_mem b hb'))
    simp only [runAllBatches, hrb, Bool.false_eq_true, if_false, hrest,
      List.map_cons, List.flatten_cons, commitTrack]

theorem rename_file_some (env : Env) (p : String) (c : Nat) (fd : FileDescriptor)
    (h : rename_file env p c = some fd) :
    fd.id = env.hashFn c ∧ fd.oldFilePath = p := by
  unfold rename_file at h
  by_cases ht : env.extractFn c = ""
  · simp only [ht, if_pos] at h
    cases h
    exact ⟨rfl, rfl⟩
  · simp only [ht, if_neg, if_false] at h
    cases hc : env.classifyFn (env.extractFn c) with
    | error e => rw [hc] at h; cases h
    | ok info =>
      rw [hc] at h
      cases h
      exact ⟨rfl, rfl⟩

theorem mem_batchDescs (env : Env) (pdf_dir : String) (saved_ids : List String)
    (b : List SrcFile) (fd : FileDescriptor) :
    fd ∈ batchDescs env pdf_dir saved_ids b ↔
      ∃ f ∈ b, env.hashFn f.content ∉ saved_ids ∧
        rename_file env (os_path_join pdf_dir f.name) f.content = some fd := by
  unfold batchDescs
  rw [List.mem_filterMap]
  constructor
  · rintro ⟨f, hf, hval⟩
    by_cases hmem : env.hashFn f.content ∈ saved_ids
    · rw [if_pos hmem] at hval; cases hval
    · rw [if_neg hmem] at hval
      exact ⟨f, hf, hmem, hval⟩
  · rintro ⟨f, hf, hmem, hval⟩
    exact ⟨f, hf, by rw [if_neg hmem]; exact hval⟩

/-- Whether an event is a per-document processing event (skip, build
success, build failure). -/
def isDocEvent : Event → Bool
  | .skip _ => true
  | .buildOk _ => true
  | .buildFail _ => true
  | _ => false

theorem docEvent_isDoc (env : Env) (pdf_dir : String) (saved_ids : List String)
    (f : SrcFile) : isDocEvent (docEvent env pdf_dir saved_ids f) = true := by
  unfold docEvent
  by_cases hmem : env.hashFn f.content ∈ saved_ids
  · simp [hmem, isDocEvent]
  · cases hrf : rename_file env (os_path_join pdf_dir f.name) f.content <;>
      simp [hmem, hrf, isDocEvent]

theorem mem_copy_files_shape (output_dir : String) :
    ∀ (ds : List FileDescriptor) (e : Event),
      e ∈ copy_files_if_new_path_exists output_dir ds →
      (∃ i, e = .skipCopy i) ∨ (∃ p, e = .warnAbsolute p) ∨
      (∃ t, e = .ensureParentDir t) ∨ (∃ s t, e = .copy s t) := by
  intro ds
  induction ds with
  | nil => intro e he; cases he
  | cons fd rest ih =>
    intro e he
    rw [copy_files_if_new_path_exists, List.mem_append] at he
    rcases he with he | he
    · cases hres : resolveNewPath output_dir fd.newFilePath with
      | none =>
        rw [hres] at he
        simp only [List.mem_singleton] at he
        exact Or.inl ⟨fd.id, he⟩
      | some target =>
        rw [hres] at he
        rw [List.mem_append] at he
        rcases he with he | he
        · by_cases habs : isAbsolutePath fd.newFilePath = true
          · rw [if_pos habs] at he
            simp only [List.mem_singleton] at he
            exact Or.inr (Or.inl ⟨fd.newFilePath, he⟩)
          · rw [if_neg habs] at he
            cases he
        · simp only [List.mem_cons, List.mem_singleton] at he
          rcases he with he | he | he
          · exact Or.inr (Or.inr (Or.inl ⟨target, he⟩))
          · exact Or.inr (Or.inr (Or.inr ⟨fd.oldFilePath, target, he⟩))
          · cases he
    · exact ih e he

theorem append_mem_batchTrace (env : Env) (pdf_dir output_dir : String)
    (saved_ids : List String) (b : List SrcFile) (recs : List FileDescriptor)
    (h : Event.append recs ∈ batchTrace env pdf_dir output_dir saved_ids b) :
    recs = batchDescs env pdf_dir saved_ids b ∧
      (batchDescs env pdf_dir saved_ids b).isEmpty = false := by
  unfold batchTrace at h
  rw [List.mem_append] at h
  rcases h with h | h
  · rcases List.mem_map.mp h with ⟨f, _, hev⟩
    have := docEvent_isDoc env pdf_dir saved_ids f
    rw [hev] at this
    cases this
  · by_cases hds : (batchDescs env pdf_dir saved_ids b).isEmpty = true
    · rw [if_pos hds] at h; cases h
    · rw [if_neg hds] at h
      rcases List.mem_cons.mp h with h | h
      · cases h
        exact ⟨rfl, Bool.eq_false_iff.mpr hds⟩
      · rcases mem_copy_files_shape output_dir _ _ h with ⟨_, h⟩ | ⟨_, h⟩ | ⟨_, h⟩ | ⟨_, _, h⟩ <;> cases h

theorem readable_of_runAll_no_abort (env : Env) (pdf_dir output_dir : String)
    (saved_ids : List String) (bs : List (List SrcFile)) (track : TrackFile)
    (h : (runAllBatches env pdf_dir output_dir saved_ids track bs).2.2 = false) :
    ∀ b ∈ bs, ∀ f ∈ b, f.readable = true := by
  intro b hb f hf
  by_contra hc
  have habort : (runAllBatches env pdf_dir output_dir saved_ids track bs).2.2 = true :=
    (runAllBatches_abort_iff env pdf_dir output_dir saved_ids bs track).mpr
      ⟨b, hb, f, hf, by simpa using hc⟩
  rw [h] at habort
  cases habort

theorem trackIds_commitTrack_mono (env : Env) (pdf_dir : String)
    (saved_ids : List String) :
    ∀ (bs : List (List SrcFile)) (t : TrackFile) (x : String),
      x ∈ trackIds t → x ∈ trackIds (commitTrack env pdf_dir saved_ids t bs) := by
  intro bs
  induction bs with
  | nil => intro t x hx; exact hx
  | cons b rest ih =>
    intro t x hx
    simp only [commitTrack]
    apply ih
    by_cases hds : (batchDescs env pdf_dir saved_ids b).isEmpty = true
    · rw [if_pos hds]; exact hx
    · rw [if_neg hds, trackIds_save_batch]
      exact List.mem_append_left _ hx

theorem hash_in_commit_or_fail (env : Env) (pdf_dir : String)
    (saved_ids : List String) :
    ∀ (bs : List (List SrcFile)) (t : TrackFile),
      (∀ i ∈ saved_ids, i ∈ trackIds t) →
      ∀ b ∈ bs, ∀ f ∈ b,
        env.hashFn f.content ∈ trackIds (commitTrack env pdf_dir saved_ids t bs) ∨
          rename_file env (os_path_join pdf_dir f.name) f.content = none := by
  intro bs
  induction bs with
  | nil => intro t _ b hb; cases hb
  | cons b0 rest ih =>
    intro t hsub b hb f hf
    simp only [commitTrack]
    have hmono : ∀ x, x ∈ trackIds t →
        x ∈ trackIds (if (batchDescs env pdf_dir saved_ids b0).isEmpty then t
          else save_batch t (batchDescs env pdf_dir saved_ids b0)) := by
      intro x hx
      by_cases hds : (batchDescs env pdf_dir saved_ids b0).isEmpty = true
      · rw [if_pos hds]; exact hx
      · rw [if_neg hds, trackIds_save_batch]
        exact List.mem_append_left _ hx
    rcases List.mem_cons.mp hb with hbb | hbb
    · subst hbb
      by_cases hmem : env.hashFn f.content ∈ saved_ids
      · exact Or.inl (trackIds_commitTrack_mono env pdf_dir saved_ids rest _ _
          (hmono _ (hsub _ hmem)))
      · cases hrf : rename_file env (os_path_join pdf_dir f.name) f.content with
        | none => exact Or.inr rfl
        | some fd =>
          left
          have hfd : fd ∈ batchDescs env pdf_dir saved_ids b :=
            (mem_batchDescs env pdf_dir saved_ids b fd).mpr ⟨f, hf, hmem, hrf⟩
          have hds : ¬(batchDescs env pdf_dir saved_ids b).isEmpty = true := by
            rw [List.isEmpty_iff]
            exact List.ne_nil_of_mem hfd
          have hid : env.hashFn f.content ∈
              trackIds (if (batchDescs env pdf_dir saved_ids b).isEmpty then t
                else save_batch t (batchDescs env pdf_dir saved_ids b)) := by
            rw [if_neg hds, trackIds_save_batch]
            apply List.mem_append_right
            rw [List.mem_map]
            exact ⟨fd, hfd, (rename_file_some env _ _ fd hrf).1⟩
          exact trackIds_commitTrack_mono env pdf_dir saved_ids rest _ _ hid
    · exact ih _ (fun i hi => hmono i (hsub i hi)) b hbb f hf

theorem resolveNewPath_some_ne (output_dir p t : String)
    (h : resolveNewPath output_dir p = some t) : p ≠ "" := by
  intro he
  subst he
  simp [resolveNewPath] at h

theorem resolveNewPath_isSome (output_dir p : String) (h : p ≠ "") :
    ∃ t, resolveNewPath output_dir p = some t := by
  unfold resolveNewPath
  rw [if_neg h]
  by_cases habs : isAbsolutePath p = true
  · rw [if_pos habs]; exact ⟨p, rfl⟩
  · rw [if_neg habs]; exact ⟨_, rfl⟩

theorem copy_mem_copy_files (output_dir : String) :
    ∀ (ds : List FileDescriptor) (s t : String),
      Event.copy s t ∈ copy_files_if_new_path_exists output_dir ds →
      ∃ fd ∈ ds, fd.oldFilePath = s ∧ fd.newFilePath ≠ "" ∧
        resolveNewPath output_dir fd.newFilePath = some t := by
  intro ds
  induction ds with
  | nil => intro s t h; cases h
  | cons fd rest ih =>
    intro s t h
    rw [copy_files_if_new_path_exists, List.mem_append] at h
    rcases h with h | h
    · cases hres : resolveNewPath output_dir fd.newFilePath with
      | none =>
        rw [hres] at h
        simp only [List.mem_singleton] at h
        cases h
      | some target =>
        rw [hres] at h
        rw [List.mem_append] at h
        rcases h with h | h
        · by_cases habs : isAbsolutePath fd.newFilePath = true
          · rw [if_pos habs] at h
            simp only [List.mem_singleton] at h
            cases h
          · rw [if_neg habs] at h
            cases h
        · simp only [List.mem_cons, List.mem_singleton] at h
          rcases h with h | h | h
          · cases h
          · cases h
            exact ⟨fd, List.mem_cons_self fd rest, rfl,
              resolveNewPath_some_ne output_dir _ _ hres, hres⟩
          · cases h
    · rcases ih s t h with ⟨fd', hfd', hold, hne, hres⟩
      exact ⟨fd', List.mem_cons_of_mem fd hfd', hold, hne, hres⟩

theorem copy_files_has_copy (output_dir : String) :
    ∀ (ds : List FileDescriptor) (fd : FileDescriptor), fd ∈ ds →
      fd.newFilePath ≠ "" →
      ∃ t, resolveNewPath output_dir fd.newFilePath = some t ∧
        Event.copy fd.oldFilePath t ∈ copy_files_if_new_path_exists output_dir ds := by
  intro ds
  induction ds with
  | nil => intro fd hfd; cases hfd
  | cons g rest ih =>
    intro fd hfd hne
    rcases List.mem_cons.mp hfd with h | h
    · subst h
      rcases resolveNewPath_isSome output_dir fd.newFilePath hne with ⟨t, ht⟩
      refine ⟨t, ht, ?_⟩
      rw [copy_files_if_new_path_exists, List.mem_append]
      left
      rw [ht, List.mem_append]
      right
      simp
    · rcases ih fd h hne with ⟨t, ht, hmem⟩
      refine ⟨t, ht, ?_⟩
      rw [copy_files_if_new_path_exists, List.mem_append]
      exact Or.inr hmem

theorem copy_files_has_skipCopy (output_dir : String) :
    ∀ (ds : List FileDescriptor) (fd : FileDescriptor), fd ∈ ds →
      fd.newFilePath = "" →
      Event.skipCopy fd.id ∈ copy_files_if_new_path_exists output_dir ds := by
  intro ds
  induction ds with
  | nil => intro fd hfd; cases hfd
  | cons g rest ih =>
    intro fd hfd he
    rcases List.mem_cons.mp hfd with h | h
    · subst h
      rw [copy_files_if_new_path_exists, List.mem_append]
      left
      have : resolveNewPath output_dir fd.newFilePath = none := by
        rw [he]
        simp [resolveNewPath]
      rw [this]
      simp
    · rw [copy_files_if_new_path_exists, List.mem_append]
      exact Or.inr (ih fd h he)

theorem mem_flatten_of_mem_batchTrace (env : Env) (pdf_dir output_dir : String)
    (saved_ids : List String) (bs : List (List SrcFile)) (b : List SrcFile)
    (hb : b ∈ bs) (e : Event)
    (he : e ∈ batchTrace env pdf_dir output_dir saved_ids b) :
    e ∈ (bs.map (batchTrace env pdf_dir output_dir saved_ids)).flatten :=
  List.mem_flatten.mpr ⟨_, List.mem_map_of_mem _ hb, he⟩

theorem append_mem_flatten_batchTrace (env : Env) (pdf_dir output_dir : String)
    (saved_ids : List String) (bs : List (List SrcFile))
    (recs : List FileDescriptor)
    (h : Event.append recs ∈ (bs.map (batchTrace env pdf_dir output_dir saved_ids)).flatten) :
    ∃ b ∈ bs, recs = batchDescs env pdf_dir saved_ids b ∧
      (batchDescs env pdf_dir saved_ids b).isEmpty = false := by
  rcases List.mem_flatten.mp h with ⟨l, hl, he⟩
  rcases List.mem_map.mp hl with ⟨b, hb, hbe⟩
  rw [← hbe] at he
  rcases append_mem_batchTrace env pdf_dir output_dir saved_ids b recs he with ⟨h1, h2⟩
  exact ⟨b, hb, h1, h2⟩

theorem copy_mem_batchTrace (env : Env) (pdf_dir output_dir : String)
    (saved_ids : List String) (b : List SrcFile) (s t : String)
    (h : Event.copy s t ∈ batchTrace env pdf_dir output_dir saved_ids b) :
    ∃ fd ∈ batchDescs env pdf_dir saved_ids b, fd.oldFilePath = s ∧
      fd.newFilePath ≠ "" ∧ resolveNewPath output_dir fd.newFilePath = some t := by
  unfold batchTrace at h
  rw [List.mem_append] at h
  rcases h with h | h
  · rcases List.mem_map.mp h with ⟨f, _, hev⟩
    have := docEvent_isDoc env pdf_dir saved_ids f
    rw [hev] at this
    cases this
  · by_cases hds : (batchDescs env pdf_dir saved_ids b).isEmpty = true
    · rw [if_pos hds] at h; cases h
    · rw [if_neg hds] at h
      rcases List.mem_cons.mp h with h | h
      · cases h
      · exact copy_mem_copy_files output_dir _ s t h

theorem copy_mem_flatten_batchTrace (env : Env) (pdf_dir output_dir : String)
    (saved_ids : List String) (bs : List (List SrcFile)) (s t : String)
    (h : Event.copy s t ∈ (bs.map (batchTrace env pdf_dir output_dir saved_ids)).flatten) :
    ∃ b ∈ bs, ∃ fd ∈ batchDescs env pdf_dir saved_ids b, fd.oldFilePath = s ∧
      fd.newFilePath ≠ "" ∧ resolveNewPath output_dir fd.newFilePath = some t := by
  rcases List.mem_flatten.mp h with ⟨l, hl, he⟩
  rcases List.mem_map.mp hl with ⟨b, hb, hbe⟩
  rw [← hbe] at he
  exact ⟨b, hb, copy_mem_batchTrace env pdf_dir output_dir saved_ids b s t he⟩

theorem commitTrack_of_all_empty (env : Env) (pdf_dir : String)
    (saved_ids : List String) :
    ∀ (bs : List (List SrcFile)) (t : TrackFile),
      (∀ b ∈ bs, batchDescs env pdf_dir saved_ids b = []) →
      commitTrack env pdf_dir saved_ids t bs = t := by
  intro bs
  induction bs with
  | nil => intro t _; rfl
  | cons b rest ih =>
    intro t hall
    simp only [commitTrack]
    rw [if_pos (by rw [List.isEmpty_iff]; exact hall b (by simp))]
    exact ih t (fun b' hb' => hall b' (List.mem_cons_of_mem b hb'))

/-- C1 (amended): with the environment (hashing, extraction,
classification) unchanged, a second run of the pipeline against the source
directory and the tracking log left by a completed first run appends no
record to the tracking log, performs no file copy, and makes no batch
commit; the tracking log is left exactly as loading it found it.  The
claim's further assertion that every candidate is skipped fails when the
first run had a per-document build failure: such a candidate's hash is not
among the known ids, so the second run re-attempts (and re-fails) its
build instead of skipping it. -/
theorem second_run_appends_nothing (env : Env) (pdf_dir output_dir : String)
    (files : List SrcFile) (batch_size : Nat) (track0 : TrackFile)
    (h1 : (runMain env pdf_dir output_dir files batch_size track0).aborted = false) :
    (∀ recs, Event.append recs ∉
        (runMain env pdf_dir output_dir files batch_size
          (runMain env pdf_dir output_dir files batch_size track0).track).trace) ∧
    (∀ s t, Event.copy s t ∉
        (runMain env pdf_dir output_dir files batch_size
          (runMain env pdf_dir output_dir files batch_size track0).track).trace) ∧
    (runMain env pdf_dir output_dir files batch_size
        (runMain env pdf_dir output_dir files batch_size track0).track).track =
      (get_processed_files
        (runMain env pdf_dir output_dir files batch_size track0).track).2 := by
  have h1' : (runAllBatches env pdf_dir output_dir (get_processed_files track0).1
      (get_processed_files track0).2 (batchify files batch_size)).2.2 = false := by
    simp only [runMain] at h1
    exact h1
  have hread : ∀ b ∈ batchify files batch_size, ∀ f ∈ b, f.readable = true :=
    readable_of_runAll_no_abort env pdf_dir output_dir _ _ _ h1'
  have hrun1 := runAllBatches_eq_of_readable env pdf_dir output_dir
    (get_processed_files track0).1 (batchify files batch_size)
    (get_processed_files track0).2 hread
  have hA : runMain env pdf_dir output_dir files batch_size track0 =
      { track := commitTrack env pdf_dir (get_processed_files track0).1
          (get_processed_files track0).2 (batchify files batch_size),
        trace := ((batchify files batch_size).map
          (batchTrace env pdf_dir output_dir (get_processed_files track0).1)).flatten,
        aborted := false } := by
    simp only [runMain, hrun1]
  have hsub : ∀ i ∈ (get_processed_files track0).1,
      i ∈ trackIds (get_processed_files track0).2 := by
    intro i hi
    rw [trackIds_get_snd]
    rw [get_processed_files_fst] at hi
    exact hi
  have hdich := hash_in_commit_or_fail env pdf_dir (get_processed_files track0).1
    (batchify files batch_size) (get_processed_files track0).2 hsub
  have hdesc2 : ∀ b ∈ batchify files batch_size,
      batchDescs env pdf_dir
        (get_processed_files (commitTrack env pdf_dir (get_processed_files track0).1
          (get_processed_files track0).2 (batchify files batch_size))).1 b = [] := by
    intro b hb
    unfold batchDescs
    rw [List.filterMap_eq_nil_iff]
    intro f hf
    rcases hdich b hb f hf with h | h
    · have hmem : env.hashFn f.content ∈
          (get_processed_files (commitTrack env pdf_dir (get_processed_files track0).1
            (get_processed_files track0).2 (batchify files batch_size))).1 := by
        rw [get_processed_files_fst]
        exact h
      rw [if_pos hmem]
    · by_cases hmem : env.hashFn f.content ∈
          (get_processed_files (commitTrack env pdf_dir (get_processed_files track0).1
            (get_processed_files track0).2 (batchify files batch_size))).1
      · rw [if_pos hmem]
      · rw [if_neg hmem]
        exact h
  have hrun2 := runAllBatches_eq_of_readable env pdf_dir output_dir
    (get_processed_files (commitTrack env pdf_dir (get_processed_files track0).1
      (get_processed_files track0).2 (batchify files batch_size))).1
    (batchify files batch_size)
    (get_processed_files (commitTrack env pdf_dir (get_processed_files track0).1
      (get_processed_files track0).2 (batchify files batch_size))).2 hread
  have hB : runMain env pdf_dir output_dir files batch_size
      (commitTrack env pdf_dir (get_processed_files track0).1
        (get_processed_files track0).2 (batchify files batch_size)) =
      { track := commitTrack env pdf_dir
          (get_processed_files (commitTrack env pdf_dir (get_processed_files track0).1
            (get_processed_files track0).2 (batchify files batch_size))).1
          (get_processed_files (commitTrack env pdf_dir (get_processed_files track0).1
            (get_processed_files track0).2 (batchify files batch_size))).2
          (batchify files batch_size),
        trace := ((batchify files batch_size).map
          (batchTrace env pdf_dir output_dir
            (get_processed_files (commitTrack env pdf_dir (get_processed_files track0).1
              (get_processed_files track0).2 (batchify files batch_size))).1)).flatten,
        aborted := false } := by
    simp only [runMain, hrun2]
  refine ⟨?_, ?_, ?_⟩
  · intro recs hmem
    rw [hA] at hmem
    simp only at hmem
    rw [hB] at hmem
    simp only at hmem
    rcases append_mem_flatten_batchTrace _ _ _ _ _ _ hmem with ⟨b, hb, _, hne⟩
    rw [hdesc2 b hb] at hne
    cases hne
  · intro s t hmem
    rw [hA] at hmem
    simp only at hmem
    rw [hB] at hmem
    simp only at hmem
    rcases copy_mem_flatten_batchTrace _ _ _ _ _ _ _ hmem with ⟨b, hb, fd, hfd, _⟩
    rw [hdesc2 b hb] at hfd
    cases hfd
  · rw [hA]
    simp only
    rw [hB]
    simp only
    exact commitTrack_of_all_empty _ _ _ _ _ hdesc2

/-- C1 (counterexample to the claim as stated): a first run in which the
classifier fails for the only candidate completes (the exception is caught
per document), and the source directory and tracking log are unchanged
afterwards; yet in the second run that candidate's hash is not among the
known ids loaded from the tracking log and the candidate is not skipped —
it is re-attempted and fails to build again. -/
theorem second_run_not_all_skipped_cex :
    (let env : Env :=
       { hashFn := fun _ => "H1",
         extractFn := fun _ => "T",
         classifyFn := fun _ => Except.error "boom" };
     let files : List SrcFile :=
       [{ name := "a.pdf", content := 0, readable := true }];
     let r1 := runMain env "indir" "outdir" files 5 TrackFile.missing;
     let r2 := runMain env "indir" "outdir" files 5 r1.track;
     r1.aborted = false ∧ Event.buildFail "a.pdf" ∈ r2.trace ∧
       Event.skip "a.pdf" ∉ r2.trace) := by
  decide

/-- C1 (witness): the no-new-records-no-copies conclusion at a concrete
run whose single candidate is classified successfully and committed. -/
theorem second_run_appends_nothing_witness :
    (let env : Env :=
       { hashFn := fun _ => "H1",
         extractFn := fun _ => "T",
         classifyFn := fun _ => Except.ok
           { docType := "paper", description := "d",
             newFileName := "n.pdf", pathToFile := "./paper/" } };
     let files : List SrcFile :=
       [{ name := "a.pdf", content := 0, readable := true }];
     (runMain env "indir" "outdir" files 5 (TrackFile.jsonList [])).aborted = false ∧
     ((∀ recs, Event.append recs ∉
         (runMain env "indir" "outdir" files 5
           (runMain env "indir" "outdir" files 5 (TrackFile.jsonList [])).track).trace) ∧
      (∀ s t, Event.copy s t ∉
         (runMain env "indir" "outdir" files 5
           (runMain env "indir" "outdir" files 5 (TrackFile.jsonList [])).track).trace) ∧
      (runMain env "indir" "outdir" files 5
          (runMain env "indir" "outdir" files 5 (TrackFile.jsonList [])).track).track =
        (get_processed_files
          (runMain env "indir" "outdir" files 5 (TrackFile.jsonList [])).track).2)) :=
  ⟨by decide, second_run_appends_nothing _ "indir" "outdir" _ 5 _ (by decide)⟩

/-- C2: the tracking log's `id` field is documented as a unique
deduplication key, but `saved_ids` is loaded once at startup and never
refreshed during the run, and a batch's descriptors are not deduplicated
against each other; two distinct files with identical byte content (hence
equal hashes) that are both new are therefore both built and both
appended, leaving two records with the same id in the tracking log. -/
theorem duplicate_content_breaks_id_uniqueness :
    (let env : Env :=
       { hashFn := fun _ => "H1",
         extractFn := fun _ => "T",
         classifyFn := fun _ => Except.ok
           { docType := "paper", description := "d",
             newFileName := "n.pdf", pathToFile := "./paper/" } };
     let files : List SrcFile :=
       [{ name := "a.pdf", content := 7, readable := true },
        { name := "b.pdf", content := 7, readable := true }];
     let r := runMain env "indir" "outdir" files 5 (TrackFile.jsonList []);
     (trackIds (TrackFile.jsonList [])).Nodup ∧
     r.aborted = false ∧
     trackIds r.track = ["H1", "H1"] ∧
     ¬ (trackIds r.track).Nodup) := by
  decide

/-- C3: if the classifier raises for one document of a batch (its
`rename_file` build fails) and no other candidate of the run shares its
content hash, then the exception is caught at the per-document level: no
record with that document's hash is ever appended, while every other
not-yet-tracked document of the same batch whose build succeeded is
appended to the tracking log and — when its destination is nonempty, i.e.
its text was not empty — copied. -/
theorem classification_failure_isolated (env : Env) (pdf_dir output_dir : String)
    (files : List SrcFile) (batch_size : Nat) (track0 : TrackFile)
    (b : List SrcFile) (f : SrcFile)
    (hbs : 0 < batch_size)
    (hread : ∀ g ∈ files, g.readable = true)
    (hb : b ∈ batchify files batch_size)
    (hf : f ∈ b)
    (hfail : rename_file env (os_path_join pdf_dir f.name) f.content = none)
    (huniq : ∀ g ∈ files, env.hashFn g.content = env.hashFn f.content → g = f) :
    (∀ recs, Event.append recs ∈
        (runMain env pdf_dir output_dir files batch_size track0).trace →
      ∀ fd ∈ recs, fd.id ≠ env.hashFn f.content) ∧
    (∀ g ∈ b, ∀ fd : FileDescriptor,
      env.hashFn g.content ∉ trackIds track0 →
      rename_file env (os_path_join pdf_dir g.name) g.content = some fd →
      (∃ recs, Event.append recs ∈
          (runMain env pdf_dir output_dir files batch_size track0).trace ∧
        fd ∈ recs) ∧
      (fd.newFilePath ≠ "" → ∃ tgt, Event.copy fd.oldFilePath tgt ∈
          (runMain env pdf_dir output_dir files batch_size track0).trace)) := by
  have hreadb : ∀ b' ∈ batchify files batch_size, ∀ g ∈ b', g.readable = true :=
    fun b' hb' g hg => hread g (mem_of_mem_batchify hbs hb' hg)
  have hrun := runAllBatches_eq_of_readable env pdf_dir output_dir
    (get_processed_files track0).1 (batchify files batch_size)
    (get_processed_files track0).2 hreadb
  have hA : runMain env pdf_dir output_dir files batch_size track0 =
      { track := commitTrack env pdf_dir (get_processed_files track0).1
          (get_processed_files track0).2 (batchify files batch_size),
        trace := ((batchify files batch_size).map
          (batchTrace env pdf_dir output_dir (get_processed_files track0).1)).flatten,
        aborted := false } := by
    simp only [runMain, hrun]
  constructor
  · intro recs hmem fd hfd heq
    rw [hA] at hmem
    simp only at hmem
    rcases append_mem_flatten_batchTrace _ _ _ _ _ _ hmem with ⟨b', hb', hrecs, _⟩
    rw [hrecs] at hfd
    rcases (mem_batchDescs _ _ _ _ _).mp hfd with ⟨g, hg, _, hgrf⟩
    have hgid := (rename_file_some _ _ _ _ hgrf).1
    have hgf : g = f := huniq g (mem_of_mem_batchify hbs hb' hg) (by rw [← hgid, heq])
    rw [hgf, hfail] at hgrf
    cases hgrf
  · intro g hg fd hnew hgrf
    have hnotin : env.hashFn g.content ∉ (get_processed_files track0).1 := by
      rw [get_processed_files_fst]
      exact hnew
    have hfd : fd ∈ batchDescs env pdf_dir (get_processed_files track0).1 b :=
      (mem_batchDescs _ _ _ _ _).mpr ⟨g, hg, hnotin, hgrf⟩
    have hdsne : ¬(batchDescs env pdf_dir (get_processed_files track0).1 b).isEmpty = true := by
      rw [List.isEmpty_iff]
      exact List.ne_nil_of_mem hfd
    constructor
    · refine ⟨batchDescs env pdf_dir (get_processed_files track0).1 b, ?_, hfd⟩
      rw [hA]
      simp only
      refine mem_flatten_of_mem_batchTrace _ _ _ _ _ _ hb _ ?_
      unfold batchTrace
      rw [List.mem_append]
      right
      rw [if_neg hdsne]
      exact List.mem_cons_self _ _
    · intro hne
      rcases copy_files_has_copy output_dir _ fd hfd hne with ⟨tgt, _, hcp⟩
      refine ⟨tgt, ?_⟩
      rw [hA]
      simp only
      refine mem_flatten_of_mem_batchTrace _ _ _ _ _ _ hb _ ?_
      unfold batchTrace
      rw [List.mem_append]
      right
      rw [if_neg hdsne]
      exact List.mem_cons_of_mem _ hcp

/-- C3 (witness): a two-document batch in which `a.pdf` fails to classify
and `b.pdf` succeeds; the failed document's hash never reaches the log,
the other document is appended and copied. -/
theorem classification_failure_isolated_witness :
    (let env : Env :=
       { hashFn := fun c => if c = 1 then "HA" else "HB",
         extractFn := fun c => if c = 1 then "bad" else "good",
         classifyFn := fun t =>
           if t = "bad" then Except.error "boom"
           else Except.ok
             { docType := "paper", description := "d",
               newFileName := "n.pdf", pathToFile := "./paper/" } };
     let files : List SrcFile :=
       [{ name := "a.pdf", content := 1, readable := true },
        { name := "b.pdf", content := 2, readable := true }];
     let f : SrcFile := { name := "a.pdf", content := 1, readable := true };
     (0 < 5 ∧ (∀ g ∈ files, g.readable = true) ∧ files ∈ batchify files 5 ∧
      f ∈ files ∧
      rename_file env (os_path_join "indir" f.name) f.content = none ∧
      (∀ g ∈ files, env.hashFn g.content = env.hashFn f.content → g = f)) ∧
     ((∀ recs, Event.append recs ∈
          (runMain env "indir" "outdir" files 5 (TrackFile.jsonList [])).trace →
        ∀ fd ∈ recs, fd.id ≠ env.hashFn f.content) ∧
      (∀ g ∈ files, ∀ fd : FileDescriptor,
        env.hashFn g.content ∉ trackIds (TrackFile.jsonList []) →
        rename_file env (os_path_join "indir" g.name) g.content = some fd →
        (∃ recs, Event.append recs ∈
            (runMain env "indir" "outdir" files 5 (TrackFile.jsonList [])).trace ∧
          fd ∈ recs) ∧
        (fd.newFilePath ≠ "" → ∃ tgt, Event.copy fd.oldFilePath tgt ∈
            (runMain env "indir" "outdir" files 5 (TrackFile.jsonList [])).trace)))) :=
  ⟨⟨by decide, by decide, by decide, by decide, by decide, by decide⟩,
   classification_failure_isolated _ "indir" "outdir" _ 5 (TrackFile.jsonList []) _ _
     (by decide) (by decide) (by decide) (by decide) (by decide) (by decide)⟩

theorem rename_file_empty_text (env : Env) (p : String) (c : Nat)
    (h : env.extractFn c = "") :
    rename_file env p c = some
      { id := env.hashFn c, oldFilePath := p, newFilePath := "",
        docType := "", docDescription := "" } := by
  unfold rename_file
  rw [h]
  simp

/-- C4: a not-yet-tracked document whose text extraction returns the empty
string is committed to the tracking log with its content-hash id, its
source path and blank destination, type and description, and the relocator
performs no copy for it — it only logs the skip — yet the document is now
permanently marked processed. -/
theorem empty_text_marked_processed (env : Env) (pdf_dir output_dir : String)
    (files : List SrcFile) (batch_size : Nat) (track0 : TrackFile) (f : SrcFile)
    (hbs : 0 < batch_size)
    (hread : ∀ g ∈ files, g.readable = true)
    (hf : f ∈ files)
    (hpaths : ∀ g ∈ files,
      os_path_join pdf_dir g.name = os_path_join pdf_dir f.name → g = f)
    (hnew : env.hashFn f.content ∉ trackIds track0)
    (hempty : env.extractFn f.content = "") :
    (∃ recs, Event.append recs ∈
        (runMain env pdf_dir output_dir files batch_size track0).trace ∧
      ({ id := env.hashFn f.content, oldFilePath := os_path_join pdf_dir f.name,
         newFilePath := "", docType := "", docDescription := "" } :
        FileDescriptor) ∈ recs) ∧
    Event.skipCopy (env.hashFn f.content) ∈
      (runMain env pdf_dir output_dir files batch_size track0).trace ∧
    (∀ tgt, Event.copy (os_path_join pdf_dir f.name) tgt ∉
      (runMain env pdf_dir output_dir files batch_size track0).trace) := by
  have hreadb : ∀ b' ∈ batchify files batch_size, ∀ g ∈ b', g.readable = true :=
    fun b' hb' g hg => hread g (mem_of_mem_batchify hbs hb' hg)
  have hrun := runAllBatches_eq_of_readable env pdf_dir output_dir
    (get_processed_files track0).1 (batchify files batch_size)
    (get_processed_files track0).2 hreadb
  have hA : runMain env pdf_dir output_dir files batch_size track0 =
      { track := commitTrack env pdf_dir (get_processed_files track0).1
          (get_processed_files track0).2 (batchify files batch_size),
        trace := ((batchify files batch_size).map
          (batchTrace env pdf_dir output_dir (get_processed_files track0).1)).flatten,
        aborted := false } := by
    simp only [runMain, hrun]
  have hrf := rename_file_empty_text env (os_path_join pdf_dir f.name) f.content hempty
  have hnotin : env.hashFn f.content ∉ (get_processed_files track0).1 := by
    rw [get_processed_files_fst]
    exact hnew
  rcases List.mem_flatten.mp
    ((batchify_flatten files batch_size hbs).symm ▸ hf) with ⟨b, hbmem, hfb⟩
  have hfd := (mem_batchDescs env pdf_dir (get_processed_files track0).1 b _).mpr
    ⟨f, hfb, hnotin, hrf⟩
  have hdsne : ¬(batchDescs env pdf_dir (get_processed_files track0).1 b).isEmpty = true := by
    rw [List.isEmpty_iff]
    exact List.ne_nil_of_mem hfd
  refine ⟨?_, ?_, ?_⟩
  · refine ⟨batchDescs env pdf_dir (get_processed_files track0).1 b, ?_, hfd⟩
    rw [hA]
    simp only
    refine mem_flatten_of_mem_batchTrace _ _ _ _ _ _ hbmem _ ?_
    unfold batchTrace
    rw [List.mem_append]
    right
    rw [if_neg hdsne]
    exact List.mem_cons_self _ _
  · rw [hA]
    simp only
    refine mem_flatten_of_mem_batchTrace _ _ _ _ _ _ hbmem _ ?_
    unfold batchTrace
    rw [List.mem_append]
    right
    rw [if_neg hdsne]
    refine List.mem_cons_of_mem _ ?_
    exact copy_files_has_skipCopy output_dir _ _ hfd rfl
  · intro tgt hmem
    rw [hA] at hmem
    simp only at hmem
    rcases copy_mem_flatten_batchTrace _ _ _ _ _ _ _ hmem with
      ⟨b', hb', fd', hfd', hold, hne, _⟩
    rcases (mem_batchDescs _ _ _ _ _).mp hfd' with ⟨g, hg, _, hgrf⟩
    have hgold := (rename_file_some _ _ _ _ hgrf).2
    have hgf : g = f := hpaths g (mem_of_mem_batchify hbs hb' hg) (by rw [← hgold, hold])
    rw [hgf, hrf] at hgrf
    cases hgrf
    exact hne rfl

/-- C4 (witness): one untracked candidate whose extraction yields the
empty string: its blank record is appended, the relocator logs a copy
skip, and no copy of the file occurs. -/
theorem empty_text_marked_processed_witness :
    (let env : Env :=
       { hashFn := fun _ => "HA",
         extractFn := fun _ => "",
         classifyFn := fun _ => Except.error "never called" };
     let files : List SrcFile :=
       [{ name := "a.pdf", content := 3, readable := true }];
     let f : SrcFile := { name := "a.pdf", content := 3, readable := true };
     (0 < 5 ∧ (∀ g ∈ files, g.readable = true) ∧ f ∈ files ∧
      (∀ g ∈ files,
        os_path_join "indir" g.name = os_path_join "indir" f.name → g = f) ∧
      env.hashFn f.content ∉ trackIds TrackFile.missing ∧
      env.extractFn f.content = "") ∧
     ((∃ recs, Event.append recs ∈
          (runMain env "indir" "outdir" files 5 TrackFile.missing).trace ∧
        ({ id := env.hashFn f.content, oldFilePath := os_path_join "indir" f.name,
           newFilePath := "", docType := "", docDescription := "" } :
          FileDescriptor) ∈ recs) ∧
      Event.skipCopy (env.hashFn f.content) ∈
        (runMain env "indir" "outdir" files 5 TrackFile.missing).trace ∧
      (∀ tgt, Event.copy (os_path_join "indir" f.name) tgt ∉
        (runMain env "indir" "outdir" files 5 TrackFile.missing).trace))) :=
  ⟨⟨by decide, by decide, by decide, by decide, by decide, by decide⟩,
   empty_text_marked_processed _ "indir" "outdir" _ 5 TrackFile.missing _
     (by decide) (by decide) (by decide) (by decide) (by decide) (by decide)⟩

/-- The source paths whose records have been appended to the tracking log
by the time a trace has been replayed, starting from `seen`. -/
def appendSeen (seen : List String) : List Event → List String
  | [] => seen
  | Event.append recs :: rest =>
    appendSeen (seen ++ recs.map (fun fd => fd.oldFilePath)) rest
  | _ :: rest => appendSeen seen rest

/-- Commit ordering along a trace: every `copy` event's source file already
has a record inside some earlier `append` event (starting from the sources
in `seen`). -/
def appendBeforeCopy (seen : List String) : List Event → Prop
  | [] => True
  | Event.append recs :: rest =>
    appendBeforeCopy (seen ++ recs.map (fun fd => fd.oldFilePath)) rest
  | Event.copy src _ :: rest => src ∈ seen ∧ appendBeforeCopy seen rest
  | _ :: rest => appendBeforeCopy seen rest

theorem appendBeforeCopy_append :
    ∀ (l1 l2 : List Event) (seen : List String),
      appendBeforeCopy seen l1 → appendBeforeCopy (appendSeen seen l1) l2 →
      appendBeforeCopy seen (l1 ++ l2) := by
  intro l1
  induction l1 with
  | nil => intro l2 seen _ h2; exact h2
  | cons e rest ih =>
    intro l2 seen h1 h2
    cases e with
    | append recs =>
      simp only [appendBeforeCopy, appendSeen, List.cons_append] at *
      exact ih l2 _ h1 h2
    | copy src tgt =>
      simp only [appendBeforeCopy, appendSeen, List.cons_append] at *
      exact ⟨h1.1, ih l2 _ h1.2 h2⟩
    | skip n =>
      simp only [appendBeforeCopy, appendSeen, List.cons_append] at *
      exact ih l2 _ h1 h2
    | buildOk fd =>
      simp only [appendBeforeCopy, appendSeen, List.cons_append] at *
      exact ih l2 _ h1 h2
    | buildFail n =>
      simp only [appendBeforeCopy, appendSeen, List.cons_append] at *
      exact ih l2 _ h1 h2
    | warnAbsolute p =>
      simp only [appendBeforeCopy, appendSeen, List.cons_append] at *
      exact ih l2 _ h1 h2
    | ensureParentDir t =>
      simp only [appendBeforeCopy, appendSeen, List.cons_append] at *
      exact ih l2 _ h1 h2
    | skipCopy i =>
      simp only [appendBeforeCopy, appendSeen, List.cons_append] at *
      exact ih l2 _ h1 h2

theorem abc_of_docEvents :
    ∀ (l : List Event) (seen : List String),
      (∀ e ∈ l, isDocEvent e = true) →
      appendBeforeCopy seen l ∧ appendSeen seen l = seen := by
  intro l
  induction l with
  | nil => intro seen _; exact ⟨trivial, rfl⟩
  | cons e rest ih =>
    intro seen hall
    have hrest := ih seen (fun x hx => hall x (List.mem_cons_of_mem e hx))
    have hhead := hall e (List.mem_cons_self e rest)
    cases e with
    | skip n => exact hrest
    | buildOk fd => exact hrest
    | buildFail n => exact hrest
    | append recs => cases hhead
    | copy s t => cases hhead
    | warnAbsolute p => cases hhead
    | ensureParentDir t => cases hhead
    | skipCopy i => cases hhead

theorem abc_copy_files (output_dir : String) :
    ∀ (ds : List FileDescriptor) (seen : List String),
      (∀ fd ∈ ds, fd.oldFilePath ∈ seen) →
      appendBeforeCopy seen (copy_files_if_new_path_exists output_dir ds) := by
  intro ds
  induction ds with
  | nil => intro seen _; trivial
  | cons fd rest ih =>
    intro seen hall
    have hrest := ih seen (fun x hx => hall x (List.mem_cons_of_mem fd hx))
    have hfd := hall fd (List.mem_cons_self fd rest)
    rw [copy_files_if_new_path_exists]
    cases hres : resolveNewPath output_dir fd.newFilePath with
    | none =>
      simp only [List.singleton_append]
      exact hrest
    | some target =>
      by_cases habs : isAbsolutePath fd.newFilePath = true
      · simp only [habs, if_pos, List.append_assoc, List.singleton_append,
          List.cons_append, List.nil_append]
        exact ⟨hfd, hrest⟩
      · simp only [habs, if_neg, Bool.false_eq_true, List.nil_append,
          List.cons_append]
        exact ⟨hfd, hrest⟩

theorem processBatchDocs_events_doc (env : Env) (pdf_dir : String)
    (saved_ids : List String) :
    ∀ (b : List SrcFile) (e : Event),
      e ∈ (processBatchDocs env pdf_dir saved_ids b).2.1 → isDocEvent e = true := by
  intro b
  induction b with
  | nil => intro e he; cases he
  | cons f rest ih =>
    intro e he
    by_cases hf : f.readable = true
    · by_cases hmem : env.hashFn f.content ∈ saved_ids
      · simp only [processBatchDocs, hf, if_pos, hmem] at he
        rcases List.mem_cons.mp he with h | h
        · rw [h]; rfl
        · exact ih e h
      · cases hrf : rename_file env (os_path_join pdf_dir f.name) f.content with
        | none =>
          simp only [processBatchDocs, hf, if_pos, hmem, hrf] at he
          rcases List.mem_cons.mp he with h | h
          · rw [h]; rfl
          · exact ih e h
        | some fd =>
          simp only [processBatchDocs, hf, if_pos, hmem, hrf] at he
          rcases List.mem_cons.mp he with h | h
          · rw [h]; rfl
          · exact ih e h
    · simp only [processBatchDocs, hf, Bool.false_eq_true, if_neg] at he
      cases he

theorem abc_runBatch (env : Env) (pdf_dir output_dir : String)
    (saved_ids : List String) (track : TrackFile) (b : List SrcFile)
    (seen : List String) :
    appendBeforeCopy seen
      (runBatch env pdf_dir output_dir saved_ids track b).2.1 := by
  have hdoc := processBatchDocs_events_doc env pdf_dir saved_ids b
  have habc := abc_of_docEvents (processBatchDocs env pdf_dir saved_ids b).2.1 seen hdoc
  unfold runBatch
  by_cases hab : (processBatchDocs env pdf_dir saved_ids b).2.2 = true
  · simp only [hab, if_pos]
    exact habc.1
  · by_cases hds : (processBatchDocs env pdf_dir saved_ids b).1.isEmpty = true
    · simp only [hab, hds, if_pos, Bool.false_eq_true, if_neg]
      exact habc.1
    · simp only [hab, hds, Bool.false_eq_true, if_neg]
      refine appendBeforeCopy_append _ _ _ habc.1 ?_
      rw [habc.2]
      show appendBeforeCopy
        (seen ++ ((processBatchDocs env pdf_dir saved_ids b).1.map
          (fun fd => fd.oldFilePath))) _
      refine abc_copy_files output_dir _ _ ?_
      intro fd hfd
      exact List.mem_append_right _ (List.mem_map_of_mem _ hfd)

theorem abc_runAllBatches (env : Env) (pdf_dir output_dir : String)
    (saved_ids : List String) :
    ∀ (bs : List (List SrcFile)) (track : TrackFile) (seen : List String),
      appendBeforeCopy seen
        (runAllBatches env pdf_dir output_dir saved_ids track bs).2.1 := by
  intro bs
  induction bs with
  | nil => intro track seen; trivial
  | cons b rest ih =>
    intro track seen
    simp only [runAllBatches]
    by_cases hab : (runBatch env pdf_dir output_dir saved_ids track b).2.2 = true
    · simp only [hab, if_pos]
      exact abc_runBatch env pdf_dir output_dir saved_ids track b seen
    · rw [Bool.not_eq_true] at hab
      simp only [hab, Bool.false_eq_true, if_neg]
      exact appendBeforeCopy_append _ _ _
        (abc_runBatch env pdf_dir output_dir saved_ids track b seen)
        (ih _ _)

/-- C5: append-then-copy commit ordering — along the trace of any run,
every `copy` event's source file already has a record carried by an
earlier `append` event: a batch's tracking-log write is attempted before
any of that batch's files is copied. -/
theorem append_precedes_copy (env : Env) (pdf_dir output_dir : String)
    (files : List SrcFile) (batch_size : Nat) (track0 : TrackFile) :
    appendBeforeCopy []
      (runMain env pdf_dir output_dir files batch_size track0).trace := by
  simp only [runMain]
  exact abc_runAllBatches env pdf_dir output_dir _ _ _ []

/-- C7 (amended): `get_processed_files` never raises and always returns a
list of ids.  A missing tracking file is created holding the empty
sequence and the empty list is returned; a file holding valid JSON that is
not a list is reinitialized to the empty sequence (with a warning) and the
empty list is returned; but a file whose content is not parseable JSON at
all — including a blank file, on which `json.load` raises
`JSONDecodeError` — is left unchanged, NOT reinitialized, and the empty
list is returned; a JSON list yields the `id`s of its dict items that
carry an `id` key, with the file unchanged. -/
theorem get_processed_files_recovery :
    get_processed_files TrackFile.missing = ([], TrackFile.jsonList []) ∧
    get_processed_files TrackFile.jsonNonList = ([], TrackFile.jsonList []) ∧
    get_processed_files TrackFile.invalidJson = ([], TrackFile.invalidJson) ∧
    get_processed_files TrackFile.blank = ([], TrackFile.blank) ∧
    ∀ items, get_processed_files (TrackFile.jsonList items) =
      (items.filterMap itemId, TrackFile.jsonList items) :=
  ⟨rfl, rfl, rfl, rfl, fun _ => rfl⟩

/-- C7 (counterexample to the claim as stated): a tracking file whose
content cannot be parsed as JSON is NOT reinitialized to an empty
sequence — `get_processed_files` returns the empty list but leaves the
file in its corrupt state (`helpers.py:277-280` only prints and returns;
only the parses-but-is-not-a-list case at `helpers.py:270-273` rewrites
the file). -/
theorem invalid_json_not_reinitialized_cex :
    (get_processed_files TrackFile.invalidJson).1 = [] ∧
    (get_processed_files TrackFile.invalidJson).2 = TrackFile.invalidJson ∧
    (get_processed_files TrackFile.invalidJson).2 ≠ TrackFile.jsonList [] := by
  decide

/-- C8: `save_batch` is read-merge-write: the current contents are read —
a missing, blank, unparseable or non-list file degrading to the empty
sequence — and the file is rewritten as exactly the tolerated existing
items followed by the dumps of the new records, in their given order. -/
theorem save_batch_read_merge_write (track : TrackFile)
    (recs : List FileDescriptor) :
    save_batch track recs =
      TrackFile.jsonList (toleratedItems track ++ recs.map JItem.fdRec) := by
  cases track <;> rfl

/-- The number of per-document processing events in a trace: one per
candidate whose hash call succeeded. -/
def countDocEvents (evs : List Event) : Nat :=
  (evs.filter isDocEvent).length

/-- The number of leading readable candidates of a list. -/
def readableCount (l : List SrcFile) : Nat :=
  (l.takeWhile (fun f => f.readable)).length

theorem countDocEvents_append (a b : List Event) :
    countDocEvents (a ++ b) = countDocEvents a + countDocEvents b := by
  simp [countDocEvents, List.filter_append]

theorem countDoc_copy_files (output_dir : String) (ds : List FileDescriptor) :
    countDocEvents (copy_files_if_new_path_exists output_dir ds) = 0 := by
  unfold countDocEvents
  rw [List.length_eq_zero, List.filter_eq_nil_iff]
  intro e he
  rcases mem_copy_files_shape output_dir ds e he with
    ⟨i, h⟩ | ⟨p, h⟩ | ⟨t, h⟩ | ⟨s, t, h⟩ <;> (rw [h]; simp [isDocEvent])

theorem countDoc_processBatchDocs (env : Env) (pdf_dir : String)
    (saved_ids : List String) :
    ∀ b : List SrcFile,
      countDocEvents (processBatchDocs env pdf_dir saved_ids b).2.1 =
        readableCount b := by
  intro b
  induction b with
  | nil => rfl
  | cons f rest ih =>
    by_cases hf : f.readable = true
    · by_cases hmem : env.hashFn f.content ∈ saved_ids
      · simp [processBatchDocs, hf, hmem, countDocEvents, isDocEvent,
          readableCount, List.takeWhile_cons] at *
        exact ih
      · cases hrf : rename_file env (os_path_join pdf_dir f.name) f.content with
        | none =>
          simp [processBatchDocs, hf, hmem, hrf, countDocEvents, isDocEvent,
            readableCount, List.takeWhile_cons] at *
          exact ih
        | some fd =>
          simp [processBatchDocs, hf, hmem, hrf, countDocEvents, isDocEvent,
            readableCount, List.takeWhile_cons] at *
          exact ih
    · simp [processBatchDocs, hf, countDocEvents, readableCount,
        List.takeWhile_cons]

theorem countDoc_runBatch (env : Env) (pdf_dir output_dir : String)
    (saved_ids : List String) (track : TrackFile) (b : List SrcFile) :
    countDocEvents (runBatch env pdf_dir output_dir saved_ids track b).2.1 =
      readableCount b := by
  unfold runBatch
  by_cases hab : (processBatchDocs env pdf_dir saved_ids b).2.2 = true
  · simp only [hab, if_pos]
    exact countDoc_processBatchDocs env pdf_dir saved_ids b
  · by_cases hds : (processBatchDocs env pdf_dir saved_ids b).1.isEmpty = true
    · simp only [hab, hds, Bool.false_eq_true, if_neg, if_pos]
      exact countDoc_processBatchDocs env pdf_dir saved_ids b
    · simp only [hab, hds, Bool.false_eq_true, if_false]
      rw [countDocEvents_append]
      have h1 : countDocEvents (Event.append (processBatchDocs env pdf_dir saved_ids b).1 ::
          copy_files_if_new_path_exists output_dir (processBatchDocs env pdf_dir saved_ids b).1) =
          0 := by
        unfold countDocEvents
        rw [List.filter_cons]
        simp only [isDocEvent, Bool.false_eq_true, if_neg]
        exact countDoc_copy_files output_dir _
      rw [h1, countDoc_processBatchDocs env pdf_dir saved_ids b]
      omega

theorem readableCount_le_append (l l' : List SrcFile) :
    readableCount l ≤ readableCount (l ++ l') := by
  induction l with
  | nil => exact Nat.zero_le _
  | cons a rest ih =>
    by_cases ha : a.readable = true
    · simp only [readableCount, List.cons_append, List.takeWhile_cons, ha,
        if_pos, List.length_cons] at *
      omega
    · simp only [readableCount, List.cons_append, List.takeWhile_cons, ha,
        Bool.false_eq_true, if_neg, List.length_nil] at *
      exact Nat.zero_le _

theorem readableCount_append_of_all (l l' : List SrcFile)
    (h : ∀ x ∈ l, x.readable = true) :
    readableCount (l ++ l') = l.length + readableCount l' := by
  induction l with
  | nil => simp
  | cons a rest ih =>
    have ha := h a (List.mem_cons_self a rest)
    have ihr := ih (fun x hx => h x (List.mem_cons_of_mem a hx))
    simp only [readableCount, List.cons_append, List.takeWhile_cons, ha,
      if_pos, List.length_cons] at *
    omega

theorem readableCount_mid_unreadable (l1 : List SrcFile) (f : SrcFile)
    (l2 : List SrcFile) (hf : f.readable = false) :
    readableCount (l1 ++ f :: l2) ≤ l1.length := by
  induction l1 with
  | nil =>
    simp only [List.nil_append, readableCount, List.takeWhile_cons, hf,
      Bool.false_eq_true, if_neg, List.length_nil]
    exact Nat.le_refl 0
  | cons a rest ih =>
    by_cases ha : a.readable = true
    · simp only [readableCount, List.cons_append, List.takeWhile_cons, ha,
        if_pos, List.length_cons] at *
      omega
    · simp only [readableCount, List.cons_append, List.takeWhile_cons, ha,
        Bool.false_eq_true, if_neg, List.length_nil]
      exact Nat.zero_le _

theorem countDoc_runAllBatches (env : Env) (pdf_dir output_dir : String)
    (saved_ids : List String) :
    ∀ (bs : List (List SrcFile)) (track : TrackFile),
      countDocEvents (runAllBatches env pdf_dir output_dir saved_ids track bs).2.1 ≤
        readableCount bs.flatten := by
  intro bs
  induction bs with
  | nil => intro track; exact Nat.zero_le _
  | cons b rest ih =>
    intro track
    simp only [runAllBatches, List.flatten_cons]
    by_cases hab : (runBatch env pdf_dir output_dir saved_ids track b).2.2 = true
    · simp only [hab, if_pos]
      rw [countDoc_runBatch]
      exact readableCount_le_append b rest.flatten
    · rw [Bool.not_eq_true] at hab
      simp only [hab, Bool.false_eq_true, if_false]
      rw [countDocEvents_append, countDoc_runBatch]
      have hpb : (processBatchDocs env pdf_dir saved_ids b).2.2 = false := by
        rw [← runBatch_flag env pdf_dir output_dir saved_ids track b]
        exact hab
      have hbread : ∀ x ∈ b, x.readable = true := by
        intro x hx
        by_contra hc
        rw [Bool.not_eq_true] at hc
        have := (processBatchDocs_abort_iff env pdf_dir saved_ids b).mpr ⟨x, hx, hc⟩
        rw [hpb] at this
        cases this
      rw [readableCount_append_of_all b rest.flatten hbread]
      have hrc : readableCount b = b.length := by
        have := readableCount_append_of_all b [] hbread
        simpa using this
      rw [hrc]
      have := ih (runBatch env pdf_dir output_dir saved_ids track b).1
      omega

theorem append_mem_runAllBatches (env : Env) (pdf_dir output_dir : String)
    (saved_ids : List String) :
    ∀ (bs : List (List SrcFile)) (track : TrackFile) (recs : List FileDescriptor),
      Event.append recs ∈
        (runAllBatches env pdf_dir output_dir saved_ids track bs).2.1 →
      ∃ pre b post, bs = pre ++ b :: post ∧
        recs = batchDescs env pdf_dir saved_ids b ∧
        (∀ x ∈ pre.flatten, x.readable = true) ∧
        (∀ x ∈ b, x.readable = true) := by
  intro bs
  induction bs with
  | nil => intro track recs h; cases h
  | cons b rest ih =>
    intro track recs hmem
    simp only [runAllBatches] at hmem
    have hnotdoc : ∀ e ∈ (processBatchDocs env pdf_dir saved_ids b).2.1,
        e ≠ Event.append recs := by
      intro e he heq
      have := processBatchDocs_events_doc env pdf_dir saved_ids b e he
      rw [heq] at this
      cases this
    by_cases hab : (runBatch env pdf_dir output_dir saved_ids track b).2.2 = true
    · simp only [hab, if_pos] at hmem
      have hpb : (processBatchDocs env pdf_dir saved_ids b).2.2 = true := by
        rw [← runBatch_flag env pdf_dir output_dir saved_ids track b]
        exact hab
      have hrb : (runBatch env pdf_dir output_dir saved_ids track b).2.1 =
          (processBatchDocs env pdf_dir saved_ids b).2.1 := by
        unfold runBatch
        simp only [hpb, if_pos]
      rw [hrb] at hmem
      exact absurd rfl (hnotdoc _ hmem)
    · rw [Bool.not_eq_true] at hab
      simp only [hab, Bool.false_eq_true, if_false] at hmem
      have hpb : (processBatchDocs env pdf_dir saved_ids b).2.2 = false := by
        rw [← runBatch_flag env pdf_dir output_dir saved_ids track b]
        exact hab
      have hbread : ∀ x ∈ b, x.readable = true := by
        intro x hx
        by_contra hc
        rw [Bool.not_eq_true] at hc
        have := (processBatchDocs_abort_iff env pdf_dir saved_ids b).mpr ⟨x, hx, hc⟩
        rw [hpb] at this
        cases this
      have hpbeq := processBatchDocs_eq_of_readable env pdf_dir saved_ids b hbread
      rcases List.mem_append.mp hmem with h | h
      · -- inside this batch's events
        have hrbcases : (runBatch env pdf_dir output_dir saved_ids track b).2.1 =
              (processBatchDocs env pdf_dir saved_ids b).2.1 ∨
            (runBatch env pdf_dir output_dir saved_ids track b).2.1 =
              (processBatchDocs env pdf_dir saved_ids b).2.1 ++
                Event.append (processBatchDocs env pdf_dir saved_ids b).1 ::
                  copy_files_if_new_path_exists output_dir
                    (processBatchDocs env pdf_dir saved_ids b).1 := by
          unfold runBatch
          by_cases hds : (processBatchDocs env pdf_dir saved_ids b).1.isEmpty = true
          · simp only [hpb, hds, Bool.false_eq_true, if_false, if_pos]
            exact Or.inl (by trivial)
          · simp only [hpb, hds, Bool.false_eq_true, if_false]
            exact Or.inr (by trivial)
        rcases hrbcases with hcase | hcase
        · rw [hcase] at h
          exact absurd rfl (hnotdoc _ h)
        · rw [hcase] at h
          rcases List.mem_append.mp h with h2 | h2
          · exact absurd rfl (hnotdoc _ h2)
          · rcases List.mem_cons.mp h2 with h3 | h3
            · have hrecs : recs = (processBatchDocs env pdf_dir saved_ids b).1 := by
                cases h3
                rfl
              refine ⟨[], b, rest, rfl, ?_, ?_, hbread⟩
              · rw [hrecs, hpbeq]
              · intro x hx
                simp at hx
            · rcases mem_copy_files_shape output_dir _ _ h3 with
                ⟨i, h4⟩ | ⟨p, h4⟩ | ⟨t, h4⟩ | ⟨s, t, h4⟩ <;> cases h4
      · rcases ih _ recs h with ⟨pre, b', post, heq, hrecs, hpre, hb'⟩
        refine ⟨b :: pre, b', post, by rw [heq, List.cons_append], hrecs, ?_, hb'⟩
        intro x hx
        rw [List.flatten_cons, List.mem_append] at hx
        rcases hx with hx | hx
        · exact hbread x hx
        · exact hpre x hx

theorem pre_readable_in_left :
    ∀ (pre : List SrcFile) (suf l1 : List SrcFile) (f : SrcFile) (l2 : List SrcFile),
      pre ++ suf = l1 ++ f :: l2 → (∀ x ∈ pre, x.readable = true) →
      f.readable = false → ∀ x ∈ pre, x ∈ l1 := by
  intro pre
  induction pre with
  | nil => intro suf l1 f l2 _ _ _ x hx; cases hx
  | cons a pre' ih =>
    intro suf l1 f l2 heq hre hf x hx
    cases l1 with
    | nil =>
      rw [List.nil_append] at heq
      have ha : a = f := (List.cons.injEq _ _ _ _).mp heq |>.1
      have := hre a (List.mem_cons_self a pre')
      rw [ha, hf] at this
      cases this
    | cons c l1' =>
      have hinj := (List.cons.injEq _ _ _ _).mp heq
      rcases List.mem_cons.mp hx with hxa | hxp
      · rw [hxa, hinj.1]
        exact List.mem_cons_self c l1'
      · exact List.mem_cons_of_mem c
          (ih suf l1' f l2 hinj.2 (fun y hy => hre y (List.mem_cons_of_mem a hy)) hf x hxp)

/-- C6 (amended): an `IOError` from `file_hash` at the filtering stage is
NOT scoped to the single document — it is raised at `main.py:149`, outside
the per-document `try`, so it propagates uncaught and aborts the entire
run: the run's aborted flag is set, at most the candidates strictly before
the unreadable file are processed at all, and every record that did get
committed belongs to a candidate before the unreadable file; the
unreadable file's batch (including its already-built descriptors) is never
committed and the remaining candidates are never processed. -/
theorem hash_ioerror_aborts_run (env : Env) (pdf_dir output_dir : String)
    (l1 : List SrcFile) (f : SrcFile) (l2 : List SrcFile)
    (batch_size : Nat) (track0 : TrackFile)
    (hbs : 0 < batch_size)
    (hf : f.readable = false) :
    (runMain env pdf_dir output_dir (l1 ++ f :: l2) batch_size track0).aborted = true ∧
    countDocEvents
      (runMain env pdf_dir output_dir (l1 ++ f :: l2) batch_size track0).trace ≤
      l1.length ∧
    (∀ recs, Event.append recs ∈
        (runMain env pdf_dir output_dir (l1 ++ f :: l2) batch_size track0).trace →
      ∀ fd ∈ recs, ∃ g ∈ l1, fd.oldFilePath = os_path_join pdf_dir g.name) := by
  have hfmem : f ∈ l1 ++ f :: l2 :=
    List.mem_append_right l1 (List.mem_cons_self f l2)
  refine ⟨?_, ?_, ?_⟩
  · simp only [runMain]
    apply (runAllBatches_abort_iff env pdf_dir output_dir _ _ _).mpr
    rcases List.mem_flatten.mp
      ((batchify_flatten (l1 ++ f :: l2) batch_size hbs).symm ▸ hfmem) with ⟨b, hb, hfb⟩
    exact ⟨b, hb, f, hfb, hf⟩
  · simp only [runMain]
    calc countDocEvents (runAllBatches env pdf_dir output_dir
          (get_processed_files track0).1 (get_processed_files track0).2
          (batchify (l1 ++ f :: l2) batch_size)).2.1
        ≤ readableCount (batchify (l1 ++ f :: l2) batch_size).flatten :=
          countDoc_runAllBatches env pdf_dir output_dir _ _ _
      _ = readableCount (l1 ++ f :: l2) := by
          rw [batchify_flatten _ _ hbs]
      _ ≤ l1.length := readableCount_mid_unreadable l1 f l2 hf
  · intro recs hmem fd hfd
    simp only [runMain] at hmem
    rcases append_mem_runAllBatches env pdf_dir output_dir _ _ _ recs hmem with
      ⟨pre, b, post, heq, hrecs, hpre, hb⟩
    rw [hrecs] at hfd
    rcases (mem_batchDescs _ _ _ _ _).mp hfd with ⟨g, hg, _, hgrf⟩
    have hgold := (rename_file_some _ _ _ _ hgrf).2
    have hsplit : (pre.flatten ++ b) ++ post.flatten = l1 ++ f :: l2 := by
      have := batchify_flatten (l1 ++ f :: l2) batch_size hbs
      rw [heq] at this
      rw [← this, List.flatten_append, List.flatten_cons]
      simp [List.append_assoc]
    have hreadpb : ∀ x ∈ pre.flatten ++ b, x.readable = true := by
      intro x hx
      rcases List.mem_append.mp hx with hx | hx
      · exact hpre x hx
      · exact hb x hx
    have hgl1 : g ∈ l1 :=
      pre_readable_in_left (pre.flatten ++ b) post.flatten l1 f l2 hsplit hreadpb hf g
        (List.mem_append_right _ hg)
    exact ⟨g, hgl1, hgold⟩

/-- C6 (counterexample to the claim as stated): with the first candidate
unreadable and a second, readable and classifiable candidate behind it,
the run aborts immediately: the second candidate is neither processed nor
committed — nothing is appended and no event at all is produced — though
the claim says all remaining candidates are still processed and
committed. -/
theorem hash_ioerror_not_isolated_cex :
    (let env : Env :=
       { hashFn := fun _ => "H1",
         extractFn := fun _ => "T",
         classifyFn := fun _ => Except.ok
           { docType := "paper", description := "d",
             newFileName := "n.pdf", pathToFile := "./paper/" } };
     let files : List SrcFile :=
       [{ name := "a.pdf", content := 1, readable := false },
        { name := "b.pdf", content := 2, readable := true }];
     let r := runMain env "indir" "outdir" files 5 (TrackFile.jsonList []);
     r.aborted = true ∧ r.track = TrackFile.jsonList [] ∧ r.trace = []) := by
  decide

/-- C6 (witness): the amended abort behavior at a concrete run whose first
candidate is unreadable. -/
theorem hash_ioerror_aborts_run_witness :
    (let env : Env :=
       { hashFn := fun _ => "H1",
         extractFn := fun _ => "T",
         classifyFn := fun _ => Except.ok
           { docType := "paper", description := "d",
             newFileName := "n.pdf", pathToFile := "./paper/" } };
     let f : SrcFile := { name := "a.pdf", content := 1, readable := false };
     let l2 : List SrcFile := [{ name := "b.pdf", content := 2, readable := true }];
     (0 < 5 ∧ f.readable = false) ∧
     ((runMain env "indir" "outdir" ([] ++ f :: l2) 5 (TrackFile.jsonList [])).aborted
        = true ∧
      countDocEvents
        (runMain env "indir" "outdir" ([] ++ f :: l2) 5 (TrackFile.jsonList [])).trace ≤
        ([] : List SrcFile).length ∧
      (∀ recs, Event.append recs ∈
          (runMain env "indir" "outdir" ([] ++ f :: l2) 5 (TrackFile.jsonList [])).trace →
        ∀ fd ∈ recs, ∃ g ∈ ([] : List SrcFile),
          fd.oldFilePath = os_path_join "indir" g.name))) :=
  ⟨⟨by decide, by decide⟩,
   hash_ioerror_aborts_run _ "indir" "outdir" [] _ _ 5 (TrackFile.jsonList [])
     (by decide) (by decide)⟩

theorem batchify_eq_nil_iff {α : Type} (l : List α) (bs : Nat) (hbs : 0 < bs) :
    batchify l bs = [] ↔ l = [] := by
  rw [batchify_eq_cons l bs hbs]
  by_cases hl : l.length = 0
  · rw [if_pos hl]
    rw [List.length_eq_zero] at hl
    simp [hl]
  · rw [if_neg hl]
    constructor
    · intro h
      cases h
    · intro h
      rw [h] at hl
      exact absurd rfl hl

theorem batchify_dropLast_length {α : Type} :
    ∀ (l : List α) (bs : Nat), 0 < bs →
      ∀ b ∈ (batchify l bs).dropLast, b.length = bs
  | l, bs, hbs => by
    rw [batchify_eq_cons l bs hbs]
    by_cases hl : l.length = 0
    · rw [if_pos hl]
      intro b hb
      cases hb
    · rw [if_neg hl]
      by_cases hrest : batchify (l.drop bs) bs = []
      · rw [hrest]
        intro b hb
        cases hb
      · intro b hb
        rw [List.dropLast_cons_of_ne_nil hrest] at hb
        rcases List.mem_cons.mp hb with h | h
        · have hdrop : l.drop bs ≠ [] :=
            fun hc => hrest (by rw [hc]; rw [batchify_eq_cons _ _ hbs]; simp)
          have hlong : bs < l.length := by
            by_contra hc
            push_neg at hc
            exact hdrop (List.drop_eq_nil_of_le hc)
          rw [h, List.length_take]
          omega
        · exact batchify_dropLast_length (l.drop bs) bs hbs b h
termination_by l _ _ => l.length
decreasing_by
  simp only [List.length_drop]
  have : 0 < l.length := Nat.pos_of_ne_zero hl
  omega

/-- Whether an event is a tracking-log append (one per batch commit). -/
def isAppendEvent : Event → Bool
  | .append _ => true
  | _ => false

/-- The number of batch commits recorded in a trace. -/
def countAppends (evs : List Event) : Nat :=
  (evs.filter isAppendEvent).length

theorem countAppends_append (a b : List Event) :
    countAppends (a ++ b) = countAppends a + countAppends b := by
  simp [countAppends, List.filter_append]

theorem countAppends_batchTrace (env : Env) (pdf_dir output_dir : String)
    (saved_ids : List String) (b : List SrcFile) :
    countAppends (batchTrace env pdf_dir output_dir saved_ids b) =
      if (batchDescs env pdf_dir saved_ids b).isEmpty then 0 else 1 := by
  unfold batchTrace
  rw [countAppends_append]
  have hdoc : countAppends (b.map (docEvent env pdf_dir saved_ids)) = 0 := by
    unfold countAppends
    rw [List.length_eq_zero, List.filter_eq_nil_iff]
    intro e he
    rcases List.mem_map.mp he with ⟨f, _, hev⟩
    have hd := docEvent_isDoc env pdf_dir saved_ids f
    rw [hev] at hd
    intro hc
    cases e <;> simp [isDocEvent, isAppendEvent] at hd hc
  rw [hdoc]
  by_cases hds : (batchDescs env pdf_dir saved_ids b).isEmpty = true
  · rw [if_pos hds, if_pos hds]
    rfl
  · rw [if_neg hds, if_neg hds]
    have hcp : countAppends (copy_files_if_new_path_exists output_dir
        (batchDescs env pdf_dir saved_ids b)) = 0 := by
      unfold countAppends
      rw [List.length_eq_zero, List.filter_eq_nil_iff]
      intro e he
      rcases mem_copy_files_shape output_dir _ _ he with
        ⟨i, h⟩ | ⟨p, h⟩ | ⟨t, h⟩ | ⟨s, t, h⟩ <;> (rw [h]; intro hc; cases hc)
    unfold countAppends at hcp ⊢
    rw [List.filter_cons]
    simp only [isAppendEvent, if_pos, List.length_cons, hcp]

theorem countAppends_flatten_batchTrace (env : Env) (pdf_dir output_dir : String)
    (saved_ids : List String) :
    ∀ bs : List (List SrcFile),
      countAppends ((bs.map (batchTrace env pdf_dir output_dir saved_ids)).flatten) =
        (bs.filter
          (fun b => !(batchDescs env pdf_dir saved_ids b).isEmpty)).length := by
  intro bs
  induction bs with
  | nil => rfl
  | cons b rest ih =>
    rw [List.map_cons, List.flatten_cons, countAppends_append,
      countAppends_batchTrace, List.filter_cons]
    by_cases hds : (batchDescs env pdf_dir saved_ids b).isEmpty = true
    · simp only [hds, if_pos, Bool.not_true, Bool.false_eq_true, if_false]
      rw [ih]
      omega
    · rw [Bool.not_eq_true] at hds
      simp only [hds, Bool.false_eq_true, if_false, Bool.not_false, if_pos,
        List.length_cons]
      rw [ih]
      omega

/-- C9 (amended): `main` partitions ALL listed candidates — including
already-processed ones — into fixed-size ordered groups before any
filtering: the groups cover the whole listing in order, every group except
possibly the last has exactly `batch_size` members counting skipped
candidates, and filtering happens per item inside each group; the number
of commit checkpoints equals the number of groups containing at least one
surviving (not previously tracked, successfully built) document, not the
number of fixed-size groups of the remaining candidates. -/
theorem batching_partitions_all_then_filters (env : Env)
    (pdf_dir output_dir : String) (files : List SrcFile) (batch_size : Nat)
    (track0 : TrackFile)
    (hbs : 0 < batch_size)
    (hread : ∀ g ∈ files, g.readable = true) :
    (batchify files batch_size).flatten = files ∧
    (∀ b ∈ (batchify files batch_size).dropLast, b.length = batch_size) ∧
    countAppends (runMain env pdf_dir output_dir files batch_size track0).trace =
      ((batchify files batch_size).filter
        (fun b => !(batchDescs env pdf_dir (trackIds track0) b).isEmpty)).length := by
  refine ⟨batchify_flatten files batch_size hbs,
    batchify_dropLast_length files batch_size hbs, ?_⟩
  have hreadb : ∀ b ∈ batchify files batch_size, ∀ g ∈ b, g.readable = true :=
    fun b hb g hg => hread g (mem_of_mem_batchify hbs hb hg)
  have hrun := runAllBatches_eq_of_readable env pdf_dir output_dir
    (get_processed_files track0).1 (batchify files batch_size)
    (get_processed_files track0).2 hreadb
  simp only [runMain, hrun]
  rw [countAppends_flatten_batchTrace, get_processed_files_fst]

/-- C9 (counterexample to the claim as stated): with batch size 2, three
candidates of which the first is already tracked, the code partitions all
three candidates first — groups `[a, b]` and `[c]` — and filters inside
each group, committing twice; the claim predicts the remaining candidates
`[b, c]` form a single full group and hence a single commit checkpoint. -/
theorem filter_after_partition_cex :
    (let env : Env :=
       { hashFn := fun c => if c = 1 then "HA" else if c = 2 then "HB" else "HC",
         extractFn := fun _ => "T",
         classifyFn := fun _ => Except.ok
           { docType := "paper", description := "d",
             newFileName := "n.pdf", pathToFile := "./paper/" } };
     let fa : SrcFile := { name := "a.pdf", content := 1, readable := true };
     let fb : SrcFile := { name := "b.pdf", content := 2, readable := true };
     let fc : SrcFile := { name := "c.pdf", content := 3, readable := true };
     let recA : FileDescriptor :=
       { id := "HA", oldFilePath := "old", newFilePath := "",
         docType := "", docDescription := "" };
     let r := runMain env "indir" "outdir" [fa, fb, fc] 2
       (TrackFile.jsonList [JItem.fdRec recA]);
     batchify [fa, fb, fc] 2 = [[fa, fb], [fc]] ∧
     countAppends r.trace = 2 ∧
     (batchify [fb, fc] 2).length = 1 ∧
     Event.skip "a.pdf" ∈ r.trace) := by
  decide

/-- C9 (witness): the amended partition-then-filter characterization at
the same concrete run: two groups, two commits, covering all candidates. -/
theorem batching_partitions_all_then_filters_witness :
    (let env : Env :=
       { hashFn := fun c => if c = 1 then "HA" else if c = 2 then "HB" else "HC",
         extractFn := fun _ => "T",
         classifyFn := fun _ => Except.ok
           { docType := "paper", description := "d",
             newFileName := "n.pdf", pathToFile := "./paper/" } };
     let files : List SrcFile :=
       [{ name := "a.pdf", content := 1, readable := true },
        { name := "b.pdf", content := 2, readable := true },
        { name := "c.pdf", content := 3, readable := true }];
     let t0 : TrackFile := TrackFile.jsonList
       [JItem.fdRec
          { id := "HA", oldFilePath := "old", newFilePath := "",
            docType := "", docDescription := "" }];
     (0 < 2 ∧ ∀ g ∈ files, g.readable = true) ∧
     ((batchify files 2).flatten = files ∧
      (∀ b ∈ (batchify files 2).dropLast, b.length = 2) ∧
      countAppends (runMain env "indir" "outdir" files 2 t0).trace =
        ((batchify files 2).filter
          (fun b => !(batchDescs env "indir" (trackIds t0) b).isEmpty)).length)) :=
  ⟨⟨by decide, by decide⟩,
   batching_partitions_all_then_filters _ "indir" "outdir" _ 2 _
     (by decide) (by decide)⟩

/-- C10: relocation path resolution — an empty `newFilePath` makes the
relocator a no-op for that record (only a skip is logged); an absolute
path is used verbatim, with a warning, bypassing the output root; a
relative path with a leading `./` (or `.\`) marker has the marker stripped
and the remainder joined under the output root; a relative path without a
marker is joined under the output root directly; and for every performed
copy the destination's parent directory is ensured to exist before the
copy happens. -/
theorem relocation_path_resolution (output_dir : String) :
    resolveNewPath output_dir "" = none ∧
    (∀ p : String, p ≠ "" → isAbsolutePath p = true →
      resolveNewPath output_dir p = some p) ∧
    (∀ p : String, isAbsolutePath p = false → startsWithStr p "./" = true →
      resolveNewPath output_dir p = some (pathlibJoin output_dir (strDrop p 2))) ∧
    (∀ p : String, isAbsolutePath p = false → startsWithStr p "./" = false →
      startsWithStr p ".\\" = true →
      resolveNewPath output_dir p = some (pathlibJoin output_dir (strDrop p 2))) ∧
    (∀ p : String, p ≠ "" → isAbsolutePath p = false →
      startsWithStr p "./" = false → startsWithStr p ".\\" = false →
      resolveNewPath output_dir p = some (pathlibJoin output_dir p)) ∧
    (∀ fd : FileDescriptor, fd.newFilePath = "" →
      copy_files_if_new_path_exists output_dir [fd] = [Event.skipCopy fd.id]) ∧
    (∀ fd : FileDescriptor, ∀ tgt,
      resolveNewPath output_dir fd.newFilePath = some tgt →
      copy_files_if_new_path_exists output_dir [fd] =
        (if isAbsolutePath fd.newFilePath then [Event.warnAbsolute fd.newFilePath]
         else []) ++ [Event.ensureParentDir tgt, Event.copy fd.oldFilePath tgt]) := by
  refine ⟨by simp [resolveNewPath], ?_, ?_, ?_, ?_, ?_, ?_⟩
  · intro p hne habs
    unfold resolveNewPath
    rw [if_neg hne, if_pos habs]
  · intro p habs hsw
    have hne : p ≠ "" := by
      intro h
      rw [h] at hsw
      exact absurd hsw (by decide)
    unfold resolveNewPath
    rw [if_neg hne, if_pos hsw]
    rw [if_neg (by rw [habs]; exact Bool.false_ne_true)]
  · intro p habs hsw hswb
    have hne : p ≠ "" := by
      intro h
      rw [h] at hswb
      exact absurd hswb (by decide)
    unfold resolveNewPath
    rw [if_neg hne]
    rw [if_neg (by rw [habs]; exact Bool.false_ne_true)]
    rw [if_neg (by rw [hsw]; exact Bool.false_ne_true), if_pos hswb]
  · intro p hne habs hsw hswb
    unfold resolveNewPath
    rw [if_neg hne]
    rw [if_neg (by rw [habs]; exact Bool.false_ne_true)]
    rw [if_neg (by rw [hsw]; exact Bool.false_ne_true)]
    rw [if_neg (by rw [hswb]; exact Bool.false_ne_true)]
  · intro fd he
    have hres : resolveNewPath output_dir fd.newFilePath = none := by
      rw [he]
      simp [resolveNewPath]
    rw [copy_files_if_new_path_exists, hres]
    rfl
  · intro fd tgt hres
    rw [copy_files_if_new_path_exists, hres]
    simp [copy_files_if_new_path_exists]

/-- C10 (witness): the three resolution modes at concrete paths under the
output root `out`: absolute verbatim, `./`-marked stripped and joined,
plain relative joined. -/
theorem relocation_path_resolution_witness :
    (("/abs/p.pdf" ≠ "" ∧ isAbsolutePath "/abs/p.pdf" = true ∧
      isAbsolutePath "./paper/x.pdf" = false ∧
      startsWithStr "./paper/x.pdf" "./" = true ∧
      "paper/x.pdf" ≠ "" ∧ isAbsolutePath "paper/x.pdf" = false ∧
      startsWithStr "paper/x.pdf" "./" = false ∧
      startsWithStr "paper/x.pdf" ".\\" = false) ∧
     (resolveNewPath "out" "/abs/p.pdf" = some "/abs/p.pdf" ∧
      resolveNewPath "out" "./paper/x.pdf" =
        some (pathlibJoin "out" (strDrop "./paper/x.pdf" 2)) ∧
      resolveNewPath "out" "paper/x.pdf" =
        some (pathlibJoin "out" "paper/x.pdf"))) :=
  ⟨by decide,
   ⟨(relocation_path_resolution "out").2.1 "/abs/p.pdf" (by decide) (by decide),
    (relocation_path_resolution "out").2.2.1 "./paper/x.pdf" (by decide) (by decide),
    (relocation_path_resolution "out").2.2.2.2.1 "paper/x.pdf" (by decide)
      (by decide) (by decide) (by decide)⟩⟩
